import Mathlib

/-!
Verification of extract_images_from_pdf: path reduction, file collection and image
deduplication.

A shallow embedding of `main.go`.  The functions of the program (`rootPaths`,
`collectFiles` with its walk callback, `processFile`) are translated from the
source.  The library routines they call (`strings.HasPrefix`,
`filepath.Rel`, `filepath.Walk`, `txt.NaturalLess`, `sort.Slice`, ...) are
modelled next to them, each with a note on what it stands for.

A Go string is modelled as the list of its characters (`GoString`).  The file
system, the result of `realpath.Realpath` and the iteration order of Go maps
are explicit arguments.
-/

namespace ExtractImages

/-! ## Go strings -/

/-- A Go string, as the sequence of its characters. -/
abbrev GoString := List Char

/-- The function `strings.HasPrefix`. -/
def HasPrefix (s pre : GoString) : Bool := pre.isPrefixOf s

/-- The function `strings.HasSuffix`. -/
def HasSuffix (s suf : GoString) : Bool := suf.isSuffixOf s

/-- The function `strings.ToLower` on the ASCII letters.  (Go also lowers letters
outside ASCII; none of those lowers to `.`, `p`, `d` or `f`, the only characters the
program looks for in a lowered string.) -/
def ToLower (s : GoString) : GoString := s.map Char.toLower

/-- The pieces of `s` between the separators `/`, as `strings.Split(s, "/")` gives them. -/
def splitSlash : GoString → List GoString
  | [] => [[]]
  | c :: cs =>
    if c = '/' then [] :: splitSlash cs
    else
      match splitSlash cs with
      | [] => [[c]]
      | w :: ws => (c :: w) :: ws

/-- The function `strings.Join(ws, "/")`. -/
def joinSlash : List GoString → GoString
  | [] => []
  | [w] => w
  | w :: ws => w ++ '/' :: joinSlash ws

/-! ## `path/filepath` on a system whose separator is `/` -/

/-- One step of the element loop of `filepath.Clean`: `out` holds the elements kept so
far, the last one first. An empty element and `.` are dropped, `..` removes the last
element kept if there is one that is not itself `..`; at the top it is dropped
for a rooted path and kept for a relative one. -/
def cleanStep (rooted : Bool) (out : List GoString) (w : GoString) : List GoString :=
  if w = [] ∨ w = ['.'] then out
  else if w = ['.', '.'] then
    match out with
    | [] => if rooted then [] else [w]
    | top :: rest => if top = ['.', '.'] then w :: out else rest
  else w :: out

/-- The function `filepath.Clean`. -/
def Clean (path : GoString) : GoString :=
  match path with
  | [] => ['.']
  | c :: _ =>
    let rooted := decide (c = '/')
    let out := ((splitSlash path).foldl (cleanStep rooted) []).reverse
    if rooted then '/' :: joinSlash out
    else if out = [] then ['.'] else joinSlash out

/-- The function `filepath.Join` for two elements: they are joined by a separator and the
result is cleaned; empty elements are ignored, and the join of nothing is the empty string. -/
def Join (a b : GoString) : GoString :=
  if a = [] ∧ b = [] then []
  else if a = [] then Clean b
  else if b = [] then Clean a
  else Clean (a ++ '/' :: b)

/-- The elements that the scanning loop of `filepath.Rel` reads from a string: the pieces
between separators, where a separator at the very end starts no further element. -/
def words (s : GoString) : List GoString :=
  match s with
  | [] => []
  | _ =>
    let ws := splitSlash s
    if ws.getLast? = some [] then ws.dropLast else ws

/-- The scanning loop of `filepath.Rel`: drops the leading elements that `base` and `targ`
share and returns what is left of each. -/
def stripCommon : List GoString → List GoString → List GoString × List GoString
  | b :: bs, t :: ts => if t = b then stripCommon bs ts else (b :: bs, t :: ts)
  | bs, ts => (bs, ts)

/-- The function `filepath.Rel(basepath, targpath)`; `none` stands for its error
("can't make targpath relative to basepath"). -/
def Rel (basepath targpath : GoString) : Option GoString :=
  let base := Clean basepath
  let targ := Clean targpath
  if targ = base then some ['.']
  else
    let base := if base = ['.'] then [] else base
    let baseSlashed := decide (base.head? = some '/')
    let targSlashed := decide (targ.head? = some '/')
    if baseSlashed ≠ targSlashed then none
    else
      match stripCommon (words base) (words targ) with
      | (b :: bs, t :: ts) =>
        if b = ['.', '.'] then none
        else some (joinSlash (List.replicate (b :: bs).length ['.', '.'] ++ t :: ts))
      | (b :: bs, []) => some (joinSlash (List.replicate (b :: bs).length ['.', '.']))
      | ([], ts) => some (joinSlash ts)

/-! ## `rootPaths` -/

deriving instance DecidableEq for Except

/-- The errors the program returns to its caller, and the run-time panic. -/
inductive Error where
  /-- The function `os.Getwd` failed. -/
  | getwd
  /-- The function `realpath.Realpath` failed. -/
  | resolve
  /-- The function `filepath.Rel` failed. -/
  | rel
  /-- The function `filepath.Walk` returned an error. -/
  | walk
  /-- A method was called on a nil `os.FileInfo`: the program stops with a panic. -/
  | nilInfo
  /-- A slice expression was out of range: the program stops with a panic. -/
  | sliceBounds
  /-- A call into the PDF library or the file system failed in `processFile`. -/
  | process
  deriving DecidableEq, Repr

/-- The loop `for one := range set` of `rootPaths` for the candidate `actual`.
`visit` is what the iteration has still to produce, `set` the keys of the map.
The result is the map together with the flag `add`. -/
def rootLoop (actual : GoString) :
    List GoString → List GoString → Except Error (List GoString × Bool)
  | [], set => .ok (set, true)
  | one :: visit, set =>
    match Rel one actual with
    | none => .error .rel
    | some left =>
      match Rel actual one with
      | none => .error .rel
      | some right =>
        let prefixed := HasPrefix left ['.', '.']
        if prefixed != HasPrefix right ['.', '.'] then
          if prefixed then rootLoop actual visit (set.filter (· ≠ one))
          else .ok (set, false)
        else rootLoop actual visit set

/-- The body of the outer loop of `rootPaths`, from the `n`-th input path on.
The map `set` is the list of its keys (without repetition); `order n keys` is the
order in which the `range` over the map yields its keys during the `n`-th round. -/
def rootPathsFrom (realpath : GoString → Option GoString)
    (order : Nat → List GoString → List GoString) :
    Nat → List GoString → List GoString → Except Error (List GoString)
  | _, [], set => .ok set
  | n, path :: paths, set =>
    match realpath path with
    | none => .error .resolve
    | some actual =>
      if actual ∈ set then rootPathsFrom realpath order (n + 1) paths set
      else
        match rootLoop actual (order n set) set with
        | .error e => .error e
        | .ok (set1, add) =>
          rootPathsFrom realpath order (n + 1) paths (if add then set1 ++ [actual] else set1)

/-- The function `rootPaths`. -/
def rootPaths (realpath : GoString → Option GoString)
    (order : Nat → List GoString → List GoString) (paths : List GoString) :
    Except Error (List GoString) :=
  rootPathsFrom realpath order 0 paths []

/-! ## Canonical paths -/

/-- A name that a directory entry can have: not empty, without separator, neither `.`
nor `..`. -/
def validName (w : GoString) : Bool :=
  decide (w ≠ [] ∧ '/' ∉ w ∧ w ≠ ['.'] ∧ w ≠ ['.', '.'])

/-- A canonical path, as `realpath.Realpath` returns it: absolute and clean. -/
def isCanonical (p : GoString) : Bool :=
  decide (p.head? = some '/' ∧ Clean p = p)

/-- The absolute path whose elements are `comps`. -/
def mkPath (comps : List GoString) : GoString := '/' :: joinSlash comps

/-- The test of `rootPaths` that finds `x` redundant next to `y`: the relative path from
`y` to `x` does not begin with `..` while the one from `x` to `y` does. -/
def under (x y : GoString) : Bool :=
  match Rel y x, Rel x y with
  | some l, some r => !HasPrefix l ['.', '.'] && HasPrefix r ['.', '.']
  | _, _ => false

/-- The path `b` lies within the subtree rooted at `a` and is not `a` itself: the
elements of `a` are the first elements of `b`. -/
def descendant (b a : GoString) : Bool :=
  decide (b ≠ a) && (words a).isPrefixOf (words b)

/-- The state of the outer loop of `rootPaths`: `set` holds, without repetition, paths
taken from the processed paths `done`; no member is found redundant next to another, and
every processed path is a member or is found redundant next to one. -/
def RootInv (set done : List GoString) : Prop :=
  set.Nodup ∧ (∀ x ∈ set, x ∈ done) ∧ (∀ x ∈ set, ∀ y ∈ set, under x y = false) ∧
    (∀ p ∈ done, p ∈ set ∨ ∃ m ∈ set, under p m = true)

/-! ## The file system and `filepath.Walk` -/

/-- A file system entry as `os.Lstat` sees it (symbolic links are not followed). -/
inductive Node where
  /-- An entry that is not a directory; `regular` tells a regular file from a symbolic
  link, a device, a pipe or a socket. -/
  | file (regular : Bool)
  /-- A directory with the names and entries it contains; reading the directory fails when
  `readable` is false. -/
  | dir (readable : Bool) (entries : List (GoString × Node))
  /-- An entry on which `os.Lstat` fails. -/
  | noStat

/-- The entry is a directory. -/
def Node.isDir : Node → Bool
  | .dir _ _ => true
  | _ => false

/-- The entry of a directory listing that has the given name. -/
def findEntry (name : GoString) : List (GoString × Node) → Option Node
  | [] => none
  | (n, node) :: rest => if n = name then some node else findEntry name rest

/-- The entry reached from `node` along the given elements. -/
def lookup (node : Node) : List GoString → Option Node
  | [] => some node
  | name :: rest =>
    match node with
    | .dir _ entries =>
      match findEntry name entries with
      | some child => lookup child rest
      | none => none
    | _ => none

/-- The elements of an absolute path below the root directory. -/
def pathElems (p : GoString) : List GoString := (words p).drop 1

/-- The entry that the path names in the file system whose root directory is `root`. -/
def entryAt (root : Node) (p : GoString) : Option Node := lookup root (pathElems p)

/-- The name that `os.Lstat(p)` reports: the last element of the path. -/
def baseName (p : GoString) : GoString :=
  match (pathElems p).getLast? with
  | some n => n
  | none => ['/']

/-- The methods of `os.FileInfo` that the program calls. -/
structure FileInfo where
  /-- The method `Name()`. -/
  name : GoString
  /-- The method `IsDir()`. -/
  isDir : Bool
  deriving DecidableEq, Repr

/-- The values of type `error` that a walk function returns besides `nil`. -/
inductive WalkErr where
  /-- The value `filepath.SkipDir`. -/
  | skipDir
  /-- Any other error. -/
  | other
  deriving DecidableEq, Repr

/-- The function literal that `collectFiles` passes to `filepath.Walk`, with the captured
variable `list` as state.  The parameter `info` is `none` for a nil `os.FileInfo`; the
third parameter (the error of the walk) is ignored by the source and is left out here. -/
def walkFn (p : GoString) (info : Option FileInfo) (list : List GoString) :
    Except Error (List GoString × Option WalkErr) :=
  match info with
  | none => .error .nilInfo
  | some info =>
    let name := info.name
    if HasPrefix name ['.'] then
      if info.isDir then .ok (list, some .skipDir)
      else .ok (list, none)
    else if !info.isDir && HasSuffix (ToLower p) ['.', 'p', 'd', 'f'] then
      .ok (list ++ [p], none)
    else .ok (list, none)

mutual
/-- The function `walk` of `path/filepath`: calls the walk function on the entry and, for a
directory that could be read and was not skipped, goes through its listing. -/
def walk (path : GoString) (name : GoString) (node : Node) (list : List GoString) :
    Except Error (List GoString × Option WalkErr) :=
  match node with
  | .dir readable entries =>
    match walkFn path (some ⟨name, true⟩) list with
    | .error e => .error e
    | .ok (list1, err1) =>
      if !readable || err1 ≠ none then .ok (list1, err1)
      else walkEntries path entries list1
  | .file _ => walkFn path (some ⟨name, false⟩) list
  | .noStat => walkFn path none list
/-- The loop of `walk` over the names of a directory listing. -/
def walkEntries (path : GoString) (entries : List (GoString × Node)) (list : List GoString) :
    Except Error (List GoString × Option WalkErr) :=
  match entries with
  | [] => .ok (list, none)
  | (name, node) :: rest =>
    let filename := Join path name
    match node with
    | .noStat =>
      match walkFn filename none list with
      | .error e => .error e
      | .ok (list1, err) =>
        if err ≠ none ∧ err ≠ some .skipDir then .ok (list1, err)
        else walkEntries path rest list1
    | _ =>
      match walk filename name node list with
      | .error e => .error e
      | .ok (list1, err) =>
        if err ≠ none ∧ (!node.isDir ∨ err ≠ some .skipDir) then .ok (list1, err)
        else walkEntries path rest list1
end

/-- The function `filepath.Walk` with the walk function of `collectFiles`. -/
def Walk (fs : Node) (root : GoString) (list : List GoString) :
    Except Error (List GoString × Option WalkErr) :=
  let r :=
    match entryAt fs root with
    | none => walkFn root none list
    | some .noStat => walkFn root none list
    | some node => walk root (baseName root) node list
  match r with
  | .error e => .error e
  | .ok (list1, err) => if err = some .skipDir then .ok (list1, none) else .ok (list1, err)

/-! ## Natural ordering and sorting -/

/-- The test `c >= '0' && c <= '9'`. -/
def isDigit (c : Char) : Bool := decide ('0' ≤ c ∧ c ≤ '9')

/-- The loop of one pass of `txt.NaturalLess`, with its three outcomes: less, greater, and
no difference found.  The strings are given by what is left of them, `r1` and `r2`, and
the positions `i1` and `i2` reached in each; `fuel` bounds the number of rounds. When a
string is used up the lengths `len(s1)` and `len(s2)` decide. -/
def naturalLoop (caseInsensitive : Bool) :
    Nat → Nat → Nat → GoString → GoString → Ordering
  | 0, i1, i2, r1, r2 =>
    if i1 + r1.length < i2 + r2.length then .lt
    else if i2 + r2.length < i1 + r1.length then .gt else .eq
  | fuel + 1, i1, i2, r1, r2 =>
    match r1, r2 with
    | c1 :: t1, c2 :: t2 =>
      let d1 := isDigit c1
      let d2 := isDigit c2
      if d1 ≠ d2 then (if d1 then .lt else .gt)
      else if !d1 then
        let u1 := if caseInsensitive then c1.toUpper else c1
        let u2 := if caseInsensitive then c2.toUpper else c2
        if u1 ≠ u2 then (if u1 < u2 then .lt else .gt)
        else naturalLoop caseInsensitive fuel (i1 + 1) (i2 + 1) t1 t2
      else
        let nz1 := i1 + (r1.takeWhile (· == '0')).length
        let nz2 := i2 + (r2.takeWhile (· == '0')).length
        let nr1 := (r1.dropWhile (· == '0')).takeWhile isDigit
        let nr2 := (r2.dropWhile (· == '0')).takeWhile isDigit
        if nr1.length ≠ nr2.length then (if nr1.length < nr2.length then .lt else .gt)
        else if nr1 ≠ nr2 then (if nr1 < nr2 then .lt else .gt)
        else if nz1 ≠ nz2 then (if nz1 < nz2 then .lt else .gt)
        else naturalLoop caseInsensitive fuel (nz1 + nr1.length) (nz2 + nr2.length)
          ((r1.dropWhile (· == '0')).dropWhile isDigit)
          ((r2.dropWhile (· == '0')).dropWhile isDigit)
    | _, _ =>
      if i1 + r1.length < i2 + r2.length then .lt
      else if i2 + r2.length < i1 + r1.length then .gt else .eq

/-- One pass of the natural comparison over two whole strings. -/
def naturalPass (s1 s2 : GoString) (caseInsensitive : Bool) : Ordering :=
  naturalLoop caseInsensitive (s1.length + 1) 0 0 s1 s2

/-- The comparison behind `txt.NaturalLess`: characters other than digits are compared
one by one (after upper-casing `a`..`z` when `caseInsensitive`), a digit comes before any
other character, and two runs of digits are compared by the length of the run without its
leading zeros, then by its digits, then by the number of leading zeros.  When the strings
show no difference without regard to case, they are compared a second time with regard
to case. -/
def NaturalCmp (s1 s2 : GoString) (caseInsensitive : Bool) : Ordering :=
  match naturalPass s1 s2 caseInsensitive with
  | .eq => if caseInsensitive then naturalPass s1 s2 false else .eq
  | o => o

/-- The function `txt.NaturalLess(s1, s2, caseInsensitive)`. -/
def NaturalLess (s1 s2 : GoString) (caseInsensitive : Bool) : Bool :=
  decide (NaturalCmp s1 s2 caseInsensitive = .lt)

/-- The inner loop of the insertion sort: `x` moves towards the front while it is less
than the element before it.  The part already sorted is given last element first. -/
def insertLast {α : Type} (less : α → α → Bool) (x : α) : List α → List α
  | [] => [x]
  | y :: ys => if less x y then y :: insertLast less x ys else x :: y :: ys

/-- The function `sort.Slice`, as the insertion sort that Go runs on a slice of at most
twelve elements.  On a longer slice Go sorts by another method; under a comparison that
ties no two different elements, as `NaturalLess` does on strings, the sorted sequence is
the same. -/
def sortSlice {α : Type} (less : α → α → Bool) (l : List α) : List α :=
  (l.foldl (fun acc x => insertLast less x acc) []).reverse

/-! ## `collectFiles` -/

/-- The loop `for path := range set` of `collectFiles`. -/
def collectLoop (fs : Node) : List GoString → List GoString → Except Error (List GoString)
  | [], list => .ok list
  | path :: rest, list =>
    match Walk fs path list with
    | .error e => .error e
    | .ok (list1, err) =>
      if err ≠ none then .error .walk
      else collectLoop fs rest list1

/-- The function `collectFiles`.  The map `set` is the list of its keys and `order keys`
the order in which the `range` over the map yields them. -/
def collectFiles (fs : Node) (order : List GoString → List GoString) (set : List GoString) :
    Except Error (List GoString) :=
  match collectLoop fs (order set) [] with
  | .error e => .error e
  | .ok list => .ok (sortSlice (fun a b => NaturalLess a b true) list)

/-! ## The order behind `NaturalLess` -/

/-- What one pass of `NaturalLess` compares at one position: for a run of digits the
length of the run without its leading zeros, its digits and the number of leading zeros;
for any other character the character itself.  A run of digits comes before a
character. -/
abbrev NatTok := Lex (ℕ × Lex (ℕ × Lex (List Char × ℕ)))

/-- What is left of a string that begins with a run of digits, after that run. -/
def digitRest (r : GoString) : GoString :=
  (r.dropWhile (· == '0')).dropWhile isDigit

/-- The key of the run of digits at the head of `r`. -/
def runTok (r : GoString) : NatTok :=
  toLex (0, toLex (((r.dropWhile (· == '0')).takeWhile isDigit).length,
    toLex ((r.dropWhile (· == '0')).takeWhile isDigit, (r.takeWhile (· == '0')).length)))

/-- The key of a character that is not a digit: the character, in upper case for the pass
without regard to case. -/
def chTok (caseInsensitive : Bool) (c : Char) : NatTok :=
  toLex (1, toLex (0, toLex ([if caseInsensitive then c.toUpper else c], 0)))

/-- The sequence of keys of a string for one pass; the pass compares two strings as it
compares their sequences of keys, key by key. -/
def natKey (caseInsensitive : Bool) : GoString → List NatTok
  | [] => []
  | c :: t =>
    if isDigit c then runTok (c :: t) :: natKey caseInsensitive (digitRest (c :: t))
    else chTok caseInsensitive c :: natKey caseInsensitive t
termination_by r => r.length
decreasing_by
  · rename_i h
    have hsub : ∀ (c : Char) (t : GoString), isDigit c = true →
        ((c :: t).dropWhile (· == '0')).dropWhile isDigit = t.dropWhile isDigit ∨
        ((c :: t).dropWhile (· == '0')).dropWhile isDigit =
          (t.dropWhile (· == '0')).dropWhile isDigit := by
      intro c t h
      by_cases hc : (c == '0') = true
      · right; simp [List.dropWhile_cons, hc]
      · left; simp [List.dropWhile_cons, hc, h]
    simp only [digitRest, List.length_cons]
    rcases hsub _ _ h with e | e <;> rw [e]
    · exact Nat.lt_succ_of_le (List.dropWhile_sublist _).length_le
    · exact Nat.lt_succ_of_le
        (((List.dropWhile_sublist _).trans (List.dropWhile_sublist _)).length_le)
  · simp

/-- The three-way comparison of two sequences of keys. -/
def cmpKey (a b : List NatTok) : Ordering :=
  if a < b then .lt else if b < a then .gt else .eq

/-- The pair of keys that `NaturalLess` without regard to case compares: the sequence of
keys of the first pass, then that of the second. -/
def lessKey (s : GoString) : Lex (List NatTok × List NatTok) :=
  toLex (natKey true s, natKey false s)

/-! ## What a walk collects -/

mutual
/-- The paths that the walk of an entry appends to the list: nothing below a hidden name
or in a directory that cannot be read, and every entry that is not a directory and whose
path ends in `.pdf` in any letter case. -/
def collected (path name : GoString) (node : Node) : List GoString :=
  match node with
  | .file _ =>
    if HasPrefix name ['.'] then []
    else if HasSuffix (ToLower path) ['.', 'p', 'd', 'f'] then [path] else []
  | .dir readable entries =>
    if HasPrefix name ['.'] then []
    else if readable then collectedEntries path entries else []
  | .noStat => []
/-- The paths that the walk of a directory listing appends to the list. -/
def collectedEntries (path : GoString) (entries : List (GoString × Node)) : List GoString :=
  match entries with
  | [] => []
  | (name, node) :: rest => collected (Join path name) name node ++ collectedEntries path rest
end

mutual
/-- The names in every directory of the tree are entry names, and no directory has two
entries of the same name. -/
def Node.wellFormed : Node → Bool
  | .dir _ entries => entriesWellFormed entries
  | _ => true
/-- The names of the listing are entry names, no two are the same, and the entries are
well formed. -/
def entriesWellFormed : List (GoString × Node) → Bool
  | [] => true
  | (name, node) :: rest =>
    validName name && (findEntry name rest).isNone && node.wellFormed && entriesWellFormed rest
end

mutual
/-- The walk of the tree meets no failure: every directory can be read and `os.Lstat`
succeeds on every entry. -/
def Node.healthy : Node → Bool
  | .file _ => true
  | .dir readable entries => readable && entriesHealthy entries
  | .noStat => false
/-- Every entry of the listing is healthy. -/
def entriesHealthy : List (GoString × Node) → Bool
  | [] => true
  | (_, node) :: rest => node.healthy && entriesHealthy rest
end

/-- The paths that `filepath.Walk` on the root path `root` appends to the list. -/
def rootCollected (fs : Node) (root : GoString) : List GoString :=
  match entryAt fs root with
  | some node => collected root (baseName root) node
  | none => []

/-! ## `processFile` -/

/-- The slice expression `path[:len(path)-4]`; `none` when it is out of range. -/
def sliceDir (path : GoString) : Option GoString :=
  if 4 ≤ path.length then some (path.take (path.length - 4)) else none

/-! ## File systems used as examples -/

/-- A file system with the directory `/r` of the specification's example: three numbered
PDF files, a hidden file, a hidden directory with a PDF file in it, a PDF file with an
upper-case name and a text file. -/
def exampleFs : Node :=
  .dir true [("r".toList, .dir true [
    ("f10.pdf".toList, .file true),
    ("f1.pdf".toList, .file true),
    ("f2.pdf".toList, .file true),
    (".hidden.pdf".toList, .file true),
    (".git".toList, .dir true [("inner.pdf".toList, .file true)]),
    ("DOC.PDF".toList, .file true),
    ("doc.txt".toList, .file true)])]

/-- A file system with two directories whose names differ in letter case only, each
holding a file `x.pdf`. -/
def caseFs : Node :=
  .dir true [
    ("r".toList, .dir true [("x.pdf".toList, .file true)]),
    ("R".toList, .dir true [("x.pdf".toList, .file true)])]

/-- A file system whose directory `/r` cannot be read. -/
def unreadableFs : Node :=
  .dir true [("r".toList, .dir false [("x.pdf".toList, .file true)])]

/-- A file system whose directory `/r` holds a symbolic link named `l.pdf`. -/
def linkFs : Node :=
  .dir true [("r".toList, .dir true [("l.pdf".toList, .file false)])]

/-- A file system with a directory `/a` that holds a file and a directory `b`, which
holds a file of its own. -/
def nestedFs : Node :=
  .dir true [("a".toList, .dir true [
    ("x.pdf".toList, .file true),
    ("b".toList, .dir true [("y.pdf".toList, .file true)])])]

/-- A path resolution for examples: a canonical path resolves to itself, and no other
path resolves. -/
def realpathCanonical (p : GoString) : Option GoString :=
  if isCanonical p then some p else none

/-- An image that the PDF library extracts from a page. -/
structure PdfImage where
  /-- The bytes `Image.Data`. -/
  data : List Nat
  /-- The call `Image.ToGoImage()` succeeds. -/
  decodes : Bool
  /-- Creating the directory and the file, encoding the image and closing the file all
  succeed. -/
  stores : Bool
  deriving DecidableEq, Repr

/-- A page of a document: its extracted images, or `none` when `GetPage`, `extractor.New`
or `ExtractPageImages` fails. -/
abbrev PdfPage := Option (List PdfImage)

/-- A document: its pages, or `none` when opening the file, reading it as a PDF,
decrypting it or counting its pages fails. -/
abbrev PdfDoc := Option (List PdfPage)

/-- A PNG file that `processFile` creates, with the page and index it was named from. -/
structure Png where
  /-- The page number `n`. -/
  page : Nat
  /-- The image number `i+1`. -/
  index : Nat
  /-- The path `p` of the file. -/
  path : GoString
  deriving DecidableEq, Repr

/-- The string `fmt.Sprintf("p%d_i%d.png", n, i)`. -/
def pngName (n i : Nat) : GoString :=
  ['p'] ++ Nat.toDigits 10 n ++ ['_', 'i'] ++ Nat.toDigits 10 i ++ ['.', 'p', 'n', 'g']

/-- The loop `for i, one := range pi.Images` of `processFile` on page `n`, from the image
with index `i` on. The state is the set `hashes` (the list of its keys) and the files
created so far. -/
def imageLoop (md5 : List Nat → Nat) (dir : GoString) (n : Nat) :
    Nat → List PdfImage → List Nat → List Png → Except Error (List Nat × List Png)
  | _, [], hashes, pngs => .ok (hashes, pngs)
  | i, one :: rest, hashes, pngs =>
    let hash := md5 one.data
    if hash ∈ hashes then imageLoop md5 dir n (i + 1) rest hashes pngs
    else
      let hashes := hash :: hashes
      if !one.decodes then .error .process
      else if !one.stores then .error .process
      else
        imageLoop md5 dir n (i + 1) rest hashes
          (pngs ++ [⟨n, i + 1, Join dir (pngName n (i + 1))⟩])

/-- The loop `for n := 1; n <= numPages; n++` of `processFile`, from page `n` on. -/
def pageLoop (md5 : List Nat → Nat) (path : GoString) :
    Nat → List PdfPage → List Nat → List Png → Except Error (List Png)
  | _, [], _, pngs => .ok pngs
  | n, page :: rest, hashes, pngs =>
    match page with
    | none => .error .process
    | some images =>
      match sliceDir path with
      | none => .error .sliceBounds
      | some dir =>
        match imageLoop md5 dir n 0 images hashes pngs with
        | .error e => .error e
        | .ok (hashes1, pngs1) => pageLoop md5 path (n + 1) rest hashes1 pngs1

/-- The function `processFile`; the result lists the PNG files created, in order. -/
def processFile (md5 : List Nat → Nat) (path : GoString) (doc : PdfDoc) :
    Except Error (List Png) :=
  match doc with
  | none => .error .process
  | some pages => pageLoop md5 path 1 pages [] []

/-- The loop `for _, path := range list` of `extractImages`; `docs path` is what the PDF
library finds in the file. The result lists the PNG files created. -/
def processAll (md5 : List Nat → Nat) (docs : GoString → PdfDoc) :
    List GoString → Except Error (List Png)
  | [] => .ok []
  | path :: rest =>
    match processFile md5 path (docs path) with
    | .error e => .error e
    | .ok pngs =>
      match processAll md5 docs rest with
      | .error e => .error e
      | .ok more => .ok (pngs ++ more)

/-- The function `extractImages`; `getwd` is the result of `os.Getwd`. -/
def extractImages (getwd : Option GoString) (realpath : GoString → Option GoString)
    (order : Nat → List GoString → List GoString) (fs : Node)
    (order2 : List GoString → List GoString) (md5 : List Nat → Nat)
    (docs : GoString → PdfDoc) (paths : List GoString) : Except Error (List Png) :=
  let paths1 : Except Error (List GoString) :=
    if paths = [] then
      match getwd with
      | none => .error .getwd
      | some wd => .ok (paths ++ [wd])
    else .ok paths
  match paths1 with
  | .error e => .error e
  | .ok paths2 =>
    match rootPaths realpath order paths2 with
    | .error e => .error e
    | .ok set =>
      match collectFiles fs order2 set with
      | .error e => .error e
      | .ok list => processAll md5 docs list

/-- The images of a page with their page number and their numbers `i+1`, `i+2`, ... -/
def numbered (n : Nat) : Nat → List PdfImage → List (Nat × Nat × PdfImage)
  | _, [] => []
  | i, one :: rest => (n, i + 1, one) :: numbered n (i + 1) rest

/-- The images of the pages numbered `n`, `n+1`, ..., in page order and then in the order
within the page. -/
def allImages : Nat → List (List PdfImage) → List (Nat × Nat × PdfImage)
  | _, [] => []
  | n, images :: rest => numbered n 0 images ++ allImages (n + 1) rest

/-- The images whose hash is not in `seen` and is the hash of no earlier image of the
list. -/
def keepFirst (md5 : List Nat → Nat) :
    List Nat → List (Nat × Nat × PdfImage) → List (Nat × Nat × PdfImage)
  | _, [] => []
  | seen, x :: rest =>
    if md5 x.2.2.data ∈ seen then keepFirst md5 seen rest
    else x :: keepFirst md5 (md5 x.2.2.data :: seen) rest

/-- A document of two pages: the second image of the first page and the first image of
the second page repeat the bytes of the first image. -/
def exampleDoc : List (List PdfImage) :=
  [[⟨[1, 2], true, true⟩, ⟨[1, 2], true, true⟩, ⟨[5], true, true⟩],
   [⟨[1, 2], true, true⟩, ⟨[4], true, true⟩]]

/-- The PNG file that `processFile` creates in `dir` for a numbered image. -/
def pngOf (dir : GoString) (x : Nat × Nat × PdfImage) : Png :=
  ⟨x.1, x.2.1, Join dir (pngName x.1 x.2.1)⟩
/-! ## Facts about splitting and joining -/

theorem splitSlash_ne_nil (s : GoString) : splitSlash s ≠ [] := by
  cases s with
  | nil => simp [splitSlash]
  | cons c cs =>
    unfold splitSlash
    split
    · simp
    · split <;> simp

theorem splitSlash_noSlash (w : GoString) (h : '/' ∉ w) : splitSlash w = [w] := by
  induction w with
  | nil => rfl
  | cons c cs ih =>
    have hc : c ≠ '/' := fun e => h (by simp [e])
    have hcs : '/' ∉ cs := fun e => h (by simp [e])
    simp [splitSlash, hc, ih hcs]

theorem splitSlash_append (w s : GoString) (h : '/' ∉ w) :
    splitSlash (w ++ '/' :: s) = w :: splitSlash s := by
  induction w with
  | nil => simp [splitSlash]
  | cons c cs ih =>
    have hc : c ≠ '/' := fun e => h (by simp [e])
    have hcs : '/' ∉ cs := fun e => h (by simp [e])
    simp [splitSlash, hc, ih hcs]

theorem splitSlash_joinSlash (ws : List GoString) (hne : ws ≠ [])
    (h : ∀ w ∈ ws, '/' ∉ w) : splitSlash (joinSlash ws) = ws := by
  induction ws with
  | nil => exact absurd rfl hne
  | cons w rest ih =>
    cases rest with
    | nil => simpa [joinSlash] using splitSlash_noSlash w (h w (by simp))
    | cons w2 rest2 =>
      have h1 : '/' ∉ w := h w (by simp)
      have h2 : ∀ x ∈ w2 :: rest2, '/' ∉ x := fun x hx => h x (List.mem_cons_of_mem _ hx)
      simp only [joinSlash]
      rw [splitSlash_append _ _ h1, ih (by simp) h2]

theorem mem_splitSlash_noSlash (s w : GoString) (h : w ∈ splitSlash s) : '/' ∉ w := by
  induction s generalizing w with
  | nil => simp [splitSlash] at h; simp [h]
  | cons c cs ih =>
    unfold splitSlash at h
    split at h
    · rcases List.mem_cons.1 h with h | h
      · simp [h]
      · exact ih w h
    · rename_i hc
      split at h
      · simp at h; subst h; simpa using fun e => hc e.symm
      · rename_i w1 ws heq
        rcases List.mem_cons.1 h with h | h
        · subst h
          have := ih w1 (by rw [heq]; simp)
          simp only [List.mem_cons, not_or]
          exact ⟨fun e => hc e.symm, this⟩
        · exact ih w (by rw [heq]; exact List.mem_cons_of_mem _ h)

theorem joinSlash_cons_cons (w w2 : GoString) (ws : List GoString) :
    joinSlash (w :: w2 :: ws) = w ++ '/' :: joinSlash (w2 :: ws) := rfl

theorem joinSlash_append_singleton (cs : List GoString) (hne : cs ≠ []) (n : GoString) :
    joinSlash (cs ++ [n]) = joinSlash cs ++ '/' :: n := by
  induction cs with
  | nil => exact absurd rfl hne
  | cons w rest ih =>
    cases rest with
    | nil => simp [joinSlash]
    | cons w2 rest2 =>
      have := ih (by simp)
      simp only [List.cons_append, joinSlash_cons_cons] at this ⊢
      rw [this]; simp

/-! ## Canonical paths and their elements -/

theorem validName_iff (w : GoString) :
    validName w = true ↔ w ≠ [] ∧ '/' ∉ w ∧ w ≠ ['.'] ∧ w ≠ ['.', '.'] := by
  simp [validName]

theorem cleanStep_valid (out : List GoString) (w : GoString) (h : validName w = true) :
    cleanStep true out w = w :: out := by
  rw [validName_iff] at h
  simp [cleanStep, h.1, h.2.2.1, h.2.2.2]

theorem foldl_cleanStep_valid (ws acc : List GoString) (h : ∀ w ∈ ws, validName w = true) :
    ws.foldl (cleanStep true) acc = ws.reverse ++ acc := by
  induction ws generalizing acc with
  | nil => rfl
  | cons w rest ih =>
    simp only [List.foldl_cons]
    rw [cleanStep_valid _ _ (h w (by simp)), ih _ (fun x hx => h x (List.mem_cons_of_mem _ hx))]
    simp

theorem cleanStep_true_nil (out : List GoString) : cleanStep true out [] = out := by
  simp [cleanStep]

theorem foldl_cleanStep_inv (ws acc : List GoString) (hws : ∀ w ∈ ws, '/' ∉ w)
    (hacc : ∀ w ∈ acc, validName w = true) :
    ∀ w ∈ ws.foldl (cleanStep true) acc, validName w = true := by
  induction ws generalizing acc with
  | nil => simpa using hacc
  | cons w rest ih =>
    simp only [List.foldl_cons]
    apply ih _ (fun x hx => hws x (List.mem_cons_of_mem _ hx))
    intro x hx
    unfold cleanStep at hx
    split at hx
    · exact hacc x hx
    · rename_i h1
      split at hx
      · split at hx
        · simp at hx
        · rename_i top rest2
          split at hx
          · rename_i htop
            have := hacc top (by simp)
            rw [validName_iff] at this
            exact absurd htop this.2.2.2
          · exact hacc x (List.mem_cons_of_mem _ hx)
      · rename_i h2
        rcases List.mem_cons.1 hx with hx | hx
        · subst hx
          rw [validName_iff]
          simp only [not_or] at h1
          exact ⟨h1.1, hws x (by simp), h1.2, h2⟩
        · exact hacc x hx

theorem Clean_mkPath (cs : List GoString) (h : ∀ c ∈ cs, validName c = true) :
    Clean (mkPath cs) = mkPath cs := by
  have hs : ∀ c ∈ cs, '/' ∉ c := fun c hc => ((validName_iff c).1 (h c hc)).2.1
  cases cs with
  | nil => decide
  | cons c rest =>
    simp only [mkPath, Clean, decide_True, if_true]
    have : splitSlash ('/' :: joinSlash (c :: rest)) = [] :: (c :: rest) := by
      simp [splitSlash, splitSlash_joinSlash (c :: rest) (by simp) hs]
    rw [this, List.foldl_cons, cleanStep_true_nil, foldl_cleanStep_valid _ _ h]
    simp

theorem canonical_exists (p : GoString) (h : isCanonical p = true) :
    ∃ cs : List GoString, (∀ c ∈ cs, validName c = true) ∧ p = mkPath cs := by
  simp only [isCanonical, decide_eq_true_eq] at h
  obtain ⟨h1, h2⟩ := h
  cases p with
  | nil => simp at h1
  | cons c rest =>
    simp only [List.head?_cons, Option.some.injEq] at h1
    subst h1
    refine ⟨((splitSlash ('/' :: rest)).foldl (cleanStep true) []).reverse, ?_, ?_⟩
    · intro c hc
      rw [List.mem_reverse] at hc
      exact foldl_cleanStep_inv _ _ (fun w hw => mem_splitSlash_noSlash _ w hw) (by simp) c hc
    · simp only [Clean, decide_True, if_true] at h2
      exact h2.symm

theorem mkPath_canonical (cs : List GoString) (h : ∀ c ∈ cs, validName c = true) :
    isCanonical (mkPath cs) = true := by
  simp only [isCanonical, decide_eq_true_eq]
  exact ⟨rfl, Clean_mkPath cs h⟩

theorem words_mkPath (cs : List GoString) (h : ∀ c ∈ cs, validName c = true) :
    words (mkPath cs) = [] :: cs := by
  have hs : ∀ c ∈ cs, '/' ∉ c := fun c hc => ((validName_iff c).1 (h c hc)).2.1
  cases cs with
  | nil => decide
  | cons c rest =>
    have hsp : splitSlash ('/' :: joinSlash (c :: rest)) = [] :: (c :: rest) := by
      simp [splitSlash, splitSlash_joinSlash (c :: rest) (by simp) hs]
    simp only [mkPath, words, hsp]
    have hl : ([] :: c :: rest : List GoString).getLast? ≠ some [] := by
      rw [List.getLast?_eq_getLast _ (by simp)]
      intro e
      simp only [Option.some.injEq] at e
      have hm : ([] :: c :: rest : List GoString).getLast (by simp) ∈ c :: rest := by
        rw [List.getLast_cons (by simp)]
        exact List.getLast_mem _
      have := h _ hm
      rw [e] at this
      simp [validName] at this
    rw [if_neg hl]

theorem mkPath_injective (cs ds : List GoString) (hc : ∀ c ∈ cs, validName c = true)
    (hd : ∀ c ∈ ds, validName c = true) (h : mkPath cs = mkPath ds) : cs = ds := by
  have := congrArg words h
  rw [words_mkPath cs hc, words_mkPath ds hd] at this
  simpa using this

/-! ## `filepath.Rel` on canonical paths -/

theorem stripCommon_append (pre x y : List GoString) :
    stripCommon (pre ++ x) (pre ++ y) = stripCommon x y := by
  induction pre with
  | nil => rfl
  | cons p rest ih => simp [stripCommon, ih]

theorem stripCommon_nil_right (x : List GoString) : stripCommon x [] = (x, []) := by
  cases x <;> rfl

theorem stripCommon_nil_left (y : List GoString) : stripCommon [] y = ([], y) := by
  cases y <;> rfl

theorem stripCommon_spec (ca cb : List GoString) :
    ∃ pre, ca = pre ++ (stripCommon ca cb).1 ∧ cb = pre ++ (stripCommon ca cb).2 ∧
      ((stripCommon ca cb).1 = [] ∨ (stripCommon ca cb).2 = [] ∨
        (stripCommon ca cb).1.head? ≠ (stripCommon ca cb).2.head?) := by
  induction ca generalizing cb with
  | nil => exact ⟨[], by simp [stripCommon_nil_left]⟩
  | cons a ra ih =>
    cases cb with
    | nil => exact ⟨[], by simp [stripCommon_nil_right]⟩
    | cons b rb =>
      by_cases hab : b = a
      · subst hab
        obtain ⟨pre, h1, h2, h3⟩ := ih rb
        refine ⟨b :: pre, ?_, ?_, ?_⟩
        · simp only [stripCommon, if_true, List.cons_append]; rw [← h1]
        · simp only [stripCommon, if_true, List.cons_append]; rw [← h2]
        · simpa only [stripCommon, if_true] using h3
      · refine ⟨[], ?_, ?_, ?_⟩
        · simp [stripCommon, hab]
        · simp [stripCommon, hab]
        · simp only [stripCommon, if_neg hab, List.head?_cons]
          right; right
          intro e
          exact hab (Option.some.inj e).symm

theorem HasPrefix_joinSlash_cons (t : GoString) (ts : List GoString) :
    HasPrefix (joinSlash (t :: ts)) ['.', '.'] = HasPrefix t ['.', '.'] := by
  cases ts with
  | nil => rfl
  | cons t2 ts2 =>
    rw [joinSlash_cons_cons]
    match t with
    | [] => simp [HasPrefix, List.isPrefixOf]
    | [c] => simp [HasPrefix, List.isPrefixOf]
    | c1 :: c2 :: r => simp [HasPrefix, List.isPrefixOf]

theorem mkPath_ne_dot (cs : List GoString) : mkPath cs ≠ ['.'] := by
  simp [mkPath]

theorem Rel_mkPath (ca cb : List GoString) (ha : ∀ c ∈ ca, validName c = true)
    (hb : ∀ c ∈ cb, validName c = true) (hne : ca ≠ cb) :
    Rel (mkPath ca) (mkPath cb) =
      some (joinSlash (List.replicate (stripCommon ca cb).1.length ['.', '.'] ++
        (stripCommon ca cb).2)) := by
  have hne2 : mkPath cb ≠ mkPath ca := fun e => hne (mkPath_injective _ _ ha hb e.symm)
  unfold Rel
  simp only [Clean_mkPath ca ha, Clean_mkPath cb hb, if_neg hne2, if_neg (mkPath_ne_dot ca),
    words_mkPath ca ha, words_mkPath cb hb]
  have hs : stripCommon ([] :: ca) ([] :: cb) = stripCommon ca cb := by simp [stripCommon]
  rw [hs]
  have hhead : ¬ (decide ((mkPath ca).head? = some '/') ≠ decide ((mkPath cb).head? = some '/')) := by
    simp [mkPath]
  rw [if_neg hhead]
  obtain ⟨pre, h1, _, _⟩ := stripCommon_spec ca cb
  generalize stripCommon ca cb = r at h1 ⊢
  obtain ⟨rb, rt⟩ := r
  match rb, rt with
  | [], ts => simp
  | b :: bs, [] => simp
  | b :: bs, t :: ts =>
    have hbv : validName b = true := ha b (by rw [h1]; simp)
    have : b ≠ ['.', '.'] := ((validName_iff b).1 hbv).2.2.2
    simp [this]

theorem HasPrefix_replicate (n : Nat) (rt : List GoString) :
    HasPrefix (joinSlash (List.replicate (n + 1) ['.', '.'] ++ rt)) ['.', '.'] = true := by
  rw [List.replicate_succ, List.cons_append, HasPrefix_joinSlash_cons]
  rfl

/-- On canonical paths the test `under x y` holds exactly when the elements of `x`
are those of `y` followed by at least one more, the first of which does not begin
with two dots. -/
theorem under_mkPath (cx cy : List GoString) (hx : ∀ c ∈ cx, validName c = true)
    (hy : ∀ c ∈ cy, validName c = true) :
    under (mkPath cx) (mkPath cy) = true ↔
      ∃ t ts, cx = cy ++ t :: ts ∧ HasPrefix t ['.', '.'] = false := by
  by_cases hne : cx = cy
  · subst hne
    constructor
    · intro h
      have : Rel (mkPath cx) (mkPath cx) = some ['.'] := by simp [Rel]
      simp [under, this, HasPrefix, List.isPrefixOf] at h
    · rintro ⟨t, ts, h, _⟩
      have := congrArg List.length h
      simp at this
  · have hne2 : cy ≠ cx := fun e => hne e.symm
    simp only [under, Rel_mkPath cy cx hy hx hne2, Rel_mkPath cx cy hx hy hne]
    obtain ⟨pre, h1, h2, h3⟩ := stripCommon_spec cy cx
    constructor
    · intro h
      simp only [Bool.and_eq_true, Bool.not_eq_true'] at h
      generalize hr : stripCommon cy cx = r at h1 h2 h3 h
      obtain ⟨rb, rt⟩ := r
      simp only at h1 h2 h3 h
      cases rb with
      | cons b bs => rw [List.length_cons, HasPrefix_replicate] at h; simp at h
      | nil =>
        cases rt with
        | nil => simp at h1 h2; exact absurd (h2.trans h1.symm) hne
        | cons t ts =>
          refine ⟨t, ts, ?_, ?_⟩
          · rw [h2, h1]; simp
          · simpa [HasPrefix_joinSlash_cons] using h.1
    · rintro ⟨t, ts, hcx, ht⟩
      have e1 : stripCommon cy cx = ([], t :: ts) := by
        have := stripCommon_append cy [] (t :: ts)
        rw [List.append_nil, ← hcx] at this
        rw [this, stripCommon_nil_left]
      have e2 : stripCommon cx cy = (t :: ts, []) := by
        have := stripCommon_append cy (t :: ts) []
        rw [List.append_nil, ← hcx] at this
        rw [this, stripCommon_nil_right]
      rw [e1, e2]
      simp only [List.length_nil, List.replicate_zero, List.nil_append, List.length_cons,
        List.append_nil, HasPrefix_joinSlash_cons, ht, Bool.not_false, Bool.true_and]
      have := HasPrefix_replicate ts.length []
      simpa using this

theorem under_trans (x y z : GoString) (hx : isCanonical x = true) (hy : isCanonical y = true)
    (hz : isCanonical z = true) (hxy : under x y = true) (hyz : under y z = true) :
    under x z = true := by
  obtain ⟨cx, vx, rfl⟩ := canonical_exists x hx
  obtain ⟨cy, vy, rfl⟩ := canonical_exists y hy
  obtain ⟨cz, vz, rfl⟩ := canonical_exists z hz
  rw [under_mkPath _ _ vx vy] at hxy
  rw [under_mkPath _ _ vy vz] at hyz
  rw [under_mkPath _ _ vx vz]
  obtain ⟨t, ts, h1, _⟩ := hxy
  obtain ⟨u, us, h2, hu⟩ := hyz
  exact ⟨u, us ++ t :: ts, by rw [h1, h2]; simp, hu⟩

theorem under_asymm (x y : GoString) (hxy : under x y = true) : under y x = false := by
  unfold under at hxy ⊢
  cases h1 : Rel y x <;> cases h2 : Rel x y <;> simp_all

theorem under_irrefl (x : GoString) : under x x = false := by
  cases h : under x x
  · rfl
  · rw [under_asymm x x h] at h; exact absurd h (by simp)

theorem Rel_isSome_of_canonical (x y : GoString) (hx : isCanonical x = true)
    (hy : isCanonical y = true) : ∃ r, Rel x y = some r := by
  obtain ⟨cx, vx, rfl⟩ := canonical_exists x hx
  obtain ⟨cy, vy, rfl⟩ := canonical_exists y hy
  by_cases hne : cx = cy
  · subst hne; exact ⟨['.'], by simp [Rel]⟩
  · exact ⟨_, Rel_mkPath cx cy vx vy hne⟩

/-! ## The reduction of `rootPaths` -/

theorem rootLoop_cons (actual one : GoString) (visit set : List GoString)
    (ha : isCanonical actual = true) (ho : isCanonical one = true) :
    rootLoop actual (one :: visit) set =
      if under one actual = true then rootLoop actual visit (set.filter (· ≠ one))
      else if under actual one = true then .ok (set, false)
      else rootLoop actual visit set := by
  obtain ⟨l, hl⟩ := Rel_isSome_of_canonical one actual ho ha
  obtain ⟨r, hr⟩ := Rel_isSome_of_canonical actual one ha ho
  simp only [rootLoop, under, hl, hr]
  cases HasPrefix l ['.', '.'] <;> cases HasPrefix r ['.', '.'] <;> simp

theorem rootLoop_spec (actual : GoString) (ha : isCanonical actual = true)
    (visit : List GoString) (hv : ∀ m ∈ visit, isCanonical m = true) (set : List GoString) :
    ∃ s b, rootLoop actual visit set = .ok (s, b) ∧ s.Sublist set ∧
      (∀ x ∈ set, x ∉ s → x ∈ visit ∧ under x actual = true) ∧
      (b = true → (∀ m ∈ visit, under actual m = false) ∧
        (∀ x ∈ s, x ∈ visit → under x actual = false)) ∧
      (b = false → ∃ m ∈ visit, under actual m = true) := by
  induction visit generalizing set with
  | nil => exact ⟨set, true, rfl, List.Sublist.refl _, by simp, by simp, by simp⟩
  | cons one visit ih =>
    have ho := hv one (by simp)
    have hv2 : ∀ m ∈ visit, isCanonical m = true := fun m hm => hv m (List.mem_cons_of_mem _ hm)
    rw [rootLoop_cons actual one visit set ha ho]
    by_cases h1 : under one actual = true
    · rw [if_pos h1]
      obtain ⟨s, b, e, hsub, hrem, htrue, hfalse⟩ := ih hv2 (set.filter (· ≠ one))
      refine ⟨s, b, e, hsub.trans (List.filter_sublist _), ?_, ?_, ?_⟩
      · intro x hx hxs
        by_cases hxo : x = one
        · subst hxo; exact ⟨by simp, h1⟩
        · have := hrem x (by simp [List.mem_filter, hx, hxo]) hxs
          exact ⟨List.mem_cons_of_mem _ this.1, this.2⟩
      · intro hb
        obtain ⟨t1, t2⟩ := htrue hb
        refine ⟨?_, ?_⟩
        · intro m hm
          rcases List.mem_cons.1 hm with hm | hm
          · subst hm; exact under_asymm _ _ h1
          · exact t1 m hm
        · intro x hx hxv
          rcases List.mem_cons.1 hxv with hxv | hxv
          · subst hxv
            have := hsub.subset hx
            simp [List.mem_filter] at this
          · exact t2 x hx hxv
      · intro hb
        obtain ⟨m, hm, hu⟩ := hfalse hb
        exact ⟨m, List.mem_cons_of_mem _ hm, hu⟩
    · rw [if_neg h1]
      by_cases h2 : under actual one = true
      · rw [if_pos h2]
        exact ⟨set, false, rfl, List.Sublist.refl _, fun x hx hxs => absurd hx hxs, by simp,
          fun _ => ⟨one, by simp, h2⟩⟩
      · rw [if_neg h2]
        obtain ⟨s, b, e, hsub, hrem, htrue, hfalse⟩ := ih hv2 set
        refine ⟨s, b, e, hsub, ?_, ?_, ?_⟩
        · intro x hx hxs
          have := hrem x hx hxs
          exact ⟨List.mem_cons_of_mem _ this.1, this.2⟩
        · intro hb
          obtain ⟨t1, t2⟩ := htrue hb
          refine ⟨?_, ?_⟩
          · intro m hm
            rcases List.mem_cons.1 hm with hm | hm
            · subst hm; simpa using h2
            · exact t1 m hm
          · intro x hx hxv
            rcases List.mem_cons.1 hxv with hxv | hxv
            · subst hxv; simpa using h1
            · exact t2 x hx hxv
        · intro hb
          obtain ⟨m, hm, hu⟩ := hfalse hb
          exact ⟨m, List.mem_cons_of_mem _ hm, hu⟩

theorem RootInv_step (order : Nat → List GoString → List GoString)
    (hord : ∀ n l, (order n l).Perm l) (n : Nat) (set done : List GoString)
    (actual : GoString) (ha : isCanonical actual = true)
    (hdone : ∀ x ∈ done, isCanonical x = true) (hinv : RootInv set done)
    (hnot : actual ∉ set) :
    ∃ s b, rootLoop actual (order n set) set = .ok (s, b) ∧
      RootInv (if b then s ++ [actual] else s) (done ++ [actual]) := by
  obtain ⟨hnd, hsub, hanti, hcov⟩ := hinv
  have hmem : ∀ x, x ∈ order n set ↔ x ∈ set := fun x => (hord n set).mem_iff
  have hcs : ∀ x ∈ set, isCanonical x = true := fun x hx => hdone x (hsub x hx)
  obtain ⟨s, b, e, hs, hrem, htrue, hfalse⟩ :=
    rootLoop_spec actual ha (order n set) (fun m hm => hcs m ((hmem m).1 hm)) set
  refine ⟨s, b, e, ?_⟩
  cases b with
  | false =>
    obtain ⟨m, hm, hu⟩ := hfalse rfl
    have hm' := (hmem m).1 hm
    have hall : ∀ x ∈ set, x ∈ s := by
      intro x hx
      by_contra hxs
      have hxa := (hrem x hx hxs).2
      have := under_trans x actual m (hcs x hx) ha (hcs m hm') hxa hu
      rw [hanti x hx m hm'] at this
      exact absurd this (by simp)
    refine ⟨hs.nodup hnd, ?_, ?_, ?_⟩
    · intro x hx; simp [hsub x (hs.subset hx)]
    · intro x hx y hy; exact hanti x (hs.subset hx) y (hs.subset hy)
    · intro p hp
      rcases List.mem_append.1 hp with hp | hp
      · rcases hcov p hp with h | ⟨k, hk, hku⟩
        · exact Or.inl (hall p h)
        · exact Or.inr ⟨k, hall k hk, hku⟩
      · simp at hp; subst hp
        exact Or.inr ⟨m, hall m hm', hu⟩
  | true =>
    obtain ⟨t1, t2⟩ := htrue rfl
    have hna : actual ∉ s := fun h => hnot (hs.subset h)
    simp only [if_true]
    refine ⟨?_, ?_, ?_, ?_⟩
    · rw [List.nodup_append]
      refine ⟨hs.nodup hnd, by simp, ?_⟩
      intro x hx hx2
      simp at hx2; subst hx2; exact hna hx
    · intro x hx
      rcases List.mem_append.1 hx with hx | hx
      · simp [hsub x (hs.subset hx)]
      · simp at hx; simp [hx]
    · intro x hx y hy
      rcases List.mem_append.1 hx with hx1 | hx1 <;>
        rcases List.mem_append.1 hy with hy1 | hy1
      · exact hanti x (hs.subset hx1) y (hs.subset hy1)
      · have hy2 : y = actual := by simpa using hy1
        rw [hy2]
        exact t2 x hx1 ((hmem x).2 (hs.subset hx1))
      · have hx2 : x = actual := by simpa using hx1
        rw [hx2]
        exact t1 y ((hmem y).2 (hs.subset hy1))
      · have hy2 : y = actual := by simpa using hy1
        have hx2 : x = actual := by simpa using hx1
        rw [hx2, hy2]; exact under_irrefl _
    · intro p hp
      have key : ∀ k ∈ set, k ∈ s ∨ under k actual = true := by
        intro k hk
        by_cases hks : k ∈ s
        · exact Or.inl hks
        · exact Or.inr (hrem k hk hks).2
      rcases List.mem_append.1 hp with hp | hp
      · rcases hcov p hp with h | ⟨k, hk, hku⟩
        · rcases key p h with h | h
          · exact Or.inl (List.mem_append_left _ h)
          · exact Or.inr ⟨actual, by simp, h⟩
        · rcases key k hk with h | h
          · exact Or.inr ⟨k, List.mem_append_left _ h, hku⟩
          · exact Or.inr ⟨actual, by simp,
              under_trans p k actual (hdone p hp) (hcs k hk) ha hku h⟩
      · simp at hp; subst hp; exact Or.inl (by simp)

theorem RootInv_congr (set done done2 : List GoString) (h : ∀ x, x ∈ done ↔ x ∈ done2)
    (hinv : RootInv set done) : RootInv set done2 := by
  obtain ⟨h1, h2, h3, h4⟩ := hinv
  exact ⟨h1, fun x hx => (h x).1 (h2 x hx), h3, fun p hp => h4 p ((h p).2 hp)⟩

theorem rootPathsFrom_spec (realpath : GoString → Option GoString)
    (order : Nat → List GoString → List GoString) (hord : ∀ n l, (order n l).Perm l)
    (paths : List GoString)
    (hreal : ∀ p ∈ paths, ∃ q, realpath p = some q ∧ isCanonical q = true)
    (n : Nat) (set done : List GoString) (hdone : ∀ x ∈ done, isCanonical x = true)
    (hinv : RootInv set done) :
    ∃ S, rootPathsFrom realpath order n paths set = .ok S ∧
      RootInv S (done ++ paths.filterMap realpath) := by
  induction paths generalizing n set done with
  | nil => exact ⟨set, rfl, by simpa using hinv⟩
  | cons path rest ih =>
    obtain ⟨actual, hr, ha⟩ := hreal path (by simp)
    have hreal2 : ∀ p ∈ rest, ∃ q, realpath p = some q ∧ isCanonical q = true :=
      fun p hp => hreal p (List.mem_cons_of_mem _ hp)
    have hdone2 : ∀ x ∈ done ++ [actual], isCanonical x = true := by
      intro x hx
      rcases List.mem_append.1 hx with hx | hx
      · exact hdone x hx
      · simp at hx; subst hx; exact ha
    have hfm : done ++ (path :: rest).filterMap realpath =
        (done ++ [actual]) ++ rest.filterMap realpath := by
      simp [List.filterMap_cons, hr]
    rw [hfm]
    simp only [rootPathsFrom, hr]
    by_cases hin : actual ∈ set
    · rw [if_pos hin]
      apply ih hreal2 (n + 1) set (done ++ [actual]) hdone2
      obtain ⟨h1, h2, h3, h4⟩ := hinv
      refine ⟨h1, fun x hx => by simp [h2 x hx], h3, ?_⟩
      intro p hp
      rcases List.mem_append.1 hp with hp | hp
      · exact h4 p hp
      · simp at hp; subst hp; exact Or.inl hin
    · rw [if_neg hin]
      obtain ⟨s, b, e, hinv2⟩ := RootInv_step order hord n set done actual ha hdone hinv hin
      rw [e]
      exact ih hreal2 (n + 1) _ (done ++ [actual]) hdone2 hinv2

theorem RootInv_mem (set done : List GoString) (hdone : ∀ x ∈ done, isCanonical x = true)
    (hinv : RootInv set done) (x : GoString) :
    x ∈ set ↔ x ∈ done ∧ ∀ y ∈ done, under x y = false := by
  obtain ⟨_, h2, h3, h4⟩ := hinv
  constructor
  · intro hx
    refine ⟨h2 x hx, ?_⟩
    intro y hy
    rcases h4 y hy with h | ⟨m, hm, hu⟩
    · exact h3 x hx y h
    · cases hxy : under x y
      · rfl
      · have := under_trans x y m (hdone x (h2 x hx)) (hdone y hy) (hdone m (h2 m hm)) hxy hu
        rw [h3 x hx m hm] at this
        exact absurd this (by simp)
  · rintro ⟨hx, hmax⟩
    rcases h4 x hx with h | ⟨m, hm, hu⟩
    · exact h
    · rw [hmax m (h2 m hm)] at hu
      exact absurd hu (by simp)

/-- The result of `rootPaths`: when each input path resolves to a canonical path, the call
succeeds and returns, without repetition, the resolved paths that the test `under` finds
redundant next to no other resolved path. -/
theorem rootPaths_spec (realpath : GoString → Option GoString)
    (order : Nat → List GoString → List GoString) (hord : ∀ n l, (order n l).Perm l)
    (paths : List GoString)
    (hreal : ∀ p ∈ paths, ∃ q, realpath p = some q ∧ isCanonical q = true) :
    ∃ S, rootPaths realpath order paths = .ok S ∧ S.Nodup ∧
      (∀ x ∈ S, isCanonical x = true) ∧
      ∀ x, x ∈ S ↔ x ∈ paths.filterMap realpath ∧
        ∀ y ∈ paths.filterMap realpath, under x y = false := by
  have h0 : RootInv [] [] := ⟨List.nodup_nil, by simp, by simp, by simp⟩
  obtain ⟨S, e, hinv⟩ := rootPathsFrom_spec realpath order hord paths hreal 0 [] [] (by simp) h0
  simp only [List.nil_append] at hinv
  have hcan : ∀ x ∈ paths.filterMap realpath, isCanonical x = true := by
    intro x hx
    obtain ⟨p, hp, hpx⟩ := List.mem_filterMap.1 hx
    obtain ⟨q, hq, hc⟩ := hreal p hp
    rw [hq] at hpx; cases hpx; exact hc
  exact ⟨S, e, hinv.1, fun x hx => hcan x (hinv.2.1 x hx), RootInv_mem S _ hcan hinv⟩

/-! ## `NaturalLess` is the order of the keys -/

theorem natKey_nil (ci : Bool) : natKey ci [] = [] := by
  rw [natKey]

theorem natKey_cons (ci : Bool) (c : Char) (t : GoString) :
    natKey ci (c :: t) =
      if isDigit c then runTok (c :: t) :: natKey ci (digitRest (c :: t))
      else chTok ci c :: natKey ci t := by
  rw [natKey]

theorem list_cons_lt_cons {α : Type} [LinearOrder α] (a b : α) (as bs : List α) :
    a :: as < b :: bs ↔ a < b ∨ a = b ∧ as < bs := by
  constructor
  · intro h
    cases h with
    | cons h => exact Or.inr ⟨rfl, h⟩
    | rel h => exact Or.inl h
  · rintro (h | ⟨rfl, h⟩)
    · exact List.Lex.rel h
    · exact List.Lex.cons h

theorem list_not_lt_nil {α : Type} [LinearOrder α] (l : List α) : ¬ l < [] := by
  intro h; cases h

theorem natTok_lt (a1 a2 b1 b2 : ℕ) (c1 c2 : List Char) (d1 d2 : ℕ) :
    (toLex (a1, toLex (b1, toLex (c1, d1))) : NatTok) < toLex (a2, toLex (b2, toLex (c2, d2))) ↔
      a1 < a2 ∨ a1 = a2 ∧ (b1 < b2 ∨ b1 = b2 ∧ (c1 < c2 ∨ c1 = c2 ∧ d1 < d2)) := by
  simp only [Prod.Lex.lt_iff]

theorem natTok_eq (a1 a2 b1 b2 : ℕ) (c1 c2 : List Char) (d1 d2 : ℕ) :
    (toLex (a1, toLex (b1, toLex (c1, d1))) : NatTok) = toLex (a2, toLex (b2, toLex (c2, d2))) ↔
      a1 = a2 ∧ b1 = b2 ∧ c1 = c2 ∧ d1 = d2 := by
  simp [toLex]

theorem digitRest_length (c : Char) (t : GoString) (h : isDigit c = true) :
    (digitRest (c :: t)).length ≤ t.length := by
  have hsub : ((c :: t).dropWhile (· == '0')).dropWhile isDigit = t.dropWhile isDigit ∨
      ((c :: t).dropWhile (· == '0')).dropWhile isDigit =
        (t.dropWhile (· == '0')).dropWhile isDigit := by
    by_cases hc : (c == '0') = true
    · right; simp [List.dropWhile_cons, hc]
    · left; simp [List.dropWhile_cons, hc, h]
  simp only [digitRest]
  rcases hsub with e | e <;> rw [e]
  · exact (List.dropWhile_sublist _).length_le
  · exact ((List.dropWhile_sublist _).trans (List.dropWhile_sublist _)).length_le

theorem cmpKey_nil_nil : cmpKey [] [] = .eq := by
  simp [cmpKey]

theorem cmpKey_nil_cons (a : NatTok) (as : List NatTok) : cmpKey [] (a :: as) = .lt := by
  simp [cmpKey, List.nil_lt_cons]

theorem cmpKey_cons_nil (a : NatTok) (as : List NatTok) : cmpKey (a :: as) [] = .gt := by
  have h1 : ¬ (a :: as < []) := list_not_lt_nil _
  simp [cmpKey, h1, List.nil_lt_cons]

theorem cmpKey_cons_lt (a b : NatTok) (as bs : List NatTok) (h : a < b) :
    cmpKey (a :: as) (b :: bs) = .lt := by
  have : a :: as < b :: bs := (list_cons_lt_cons a b as bs).2 (Or.inl h)
  simp [cmpKey, this]

theorem cmpKey_cons_gt (a b : NatTok) (as bs : List NatTok) (h : b < a) :
    cmpKey (a :: as) (b :: bs) = .gt := by
  have h1 : b :: bs < a :: as := (list_cons_lt_cons b a bs as).2 (Or.inl h)
  have h2 : ¬ (a :: as < b :: bs) := lt_asymm h1
  simp [cmpKey, h1, h2]

theorem cmpKey_cons_eq (a : NatTok) (as bs : List NatTok) :
    cmpKey (a :: as) (a :: bs) = cmpKey as bs := by
  simp only [cmpKey, list_cons_lt_cons, lt_self_iff_false, false_or, true_and]

theorem runTok_lt (r1 r2 : GoString) :
    runTok r1 < runTok r2 ↔
      ((r1.dropWhile (· == '0')).takeWhile isDigit).length <
          ((r2.dropWhile (· == '0')).takeWhile isDigit).length ∨
        ((r1.dropWhile (· == '0')).takeWhile isDigit).length =
          ((r2.dropWhile (· == '0')).takeWhile isDigit).length ∧
        ((r1.dropWhile (· == '0')).takeWhile isDigit <
            (r2.dropWhile (· == '0')).takeWhile isDigit ∨
          (r1.dropWhile (· == '0')).takeWhile isDigit =
            (r2.dropWhile (· == '0')).takeWhile isDigit ∧
          (r1.takeWhile (· == '0')).length < (r2.takeWhile (· == '0')).length) := by
  simp only [runTok, natTok_lt, lt_self_iff_false, true_and, false_or]

theorem runTok_eq (r1 r2 : GoString)
    (h1 : (r1.dropWhile (· == '0')).takeWhile isDigit =
      (r2.dropWhile (· == '0')).takeWhile isDigit)
    (h2 : (r1.takeWhile (· == '0')).length = (r2.takeWhile (· == '0')).length) :
    runTok r1 = runTok r2 := by
  simp only [runTok, h1, h2]

theorem chTok_lt (ci : Bool) (c1 c2 : Char) :
    chTok ci c1 < chTok ci c2 ↔
      (if ci then c1.toUpper else c1) < (if ci then c2.toUpper else c2) := by
  have hs : ∀ u1 u2 : Char, ([u1] : List Char) < [u2] ↔ u1 < u2 :=
    fun u1 u2 => List.Lex.singleton_iff _ _
  simp only [chTok, natTok_lt, lt_self_iff_false, true_and, false_or, hs, and_false,
    or_false]

theorem runTok_lt_chTok (ci : Bool) (r : GoString) (c : Char) : runTok r < chTok ci c := by
  simp only [runTok, chTok, natTok_lt]
  left; exact Nat.zero_lt_one

theorem naturalLoop_eq_key (ci : Bool) (fuel : Nat) :
    ∀ (i : Nat) (r1 r2 : GoString), r1.length < fuel →
      naturalLoop ci fuel i i r1 r2 = cmpKey (natKey ci r1) (natKey ci r2) := by
  induction fuel with
  | zero => intro i r1 r2 h; exact absurd h (Nat.not_lt_zero _)
  | succ f ih =>
    intro i r1 r2 hlen
    cases r1 with
    | nil =>
      cases r2 with
      | nil => simp [naturalLoop, natKey_nil, cmpKey_nil_nil]
      | cons c2 t2 =>
        rw [natKey_nil, natKey_cons]
        split <;> simp [naturalLoop, cmpKey_nil_cons]
    | cons c1 t1 =>
      cases r2 with
      | nil =>
        rw [natKey_nil, natKey_cons]
        split <;> simp [naturalLoop, cmpKey_cons_nil]
      | cons c2 t2 =>
        have hl1 : t1.length < f := by simpa using hlen
        rw [natKey_cons ci c1 t1, natKey_cons ci c2 t2]
        simp only [naturalLoop]
        by_cases hd1 : isDigit c1 = true <;> by_cases hd2 : isDigit c2 = true
        · -- two runs of digits
          simp only [hd1, hd2, ne_eq, not_true_eq_false, if_false, Bool.not_true, if_true,
            Bool.false_eq_true]
          by_cases h1 : (((c1 :: t1).dropWhile (· == '0')).takeWhile isDigit).length =
              (((c2 :: t2).dropWhile (· == '0')).takeWhile isDigit).length
          · by_cases h2 : ((c1 :: t1).dropWhile (· == '0')).takeWhile isDigit =
                ((c2 :: t2).dropWhile (· == '0')).takeWhile isDigit
            · by_cases h3 : ((c1 :: t1).takeWhile (· == '0')).length =
                  ((c2 :: t2).takeWhile (· == '0')).length
              · have hi := ih (i + ((c1 :: t1).takeWhile (· == '0')).length +
                    (((c1 :: t1).dropWhile (· == '0')).takeWhile isDigit).length)
                  (digitRest (c1 :: t1)) (digitRest (c2 :: t2))
                  (lt_of_le_of_lt (digitRest_length c1 t1 hd1) hl1)
                rw [runTok_eq _ _ h2 h3, cmpKey_cons_eq, ← hi]
                simp only [digitRest]
                simp only [h2, h3, not_true_eq_false, if_false]
              · have h3' : ¬ (i + ((c1 :: t1).takeWhile (· == '0')).length =
                    i + ((c2 :: t2).takeWhile (· == '0')).length) := by omega
                simp only [h1, h2, h3', not_true_eq_false, if_false, not_false_eq_true,
                  if_true, Nat.add_lt_add_iff_left]
                by_cases hlt : ((c1 :: t1).takeWhile (· == '0')).length <
                    ((c2 :: t2).takeWhile (· == '0')).length
                · rw [if_pos hlt]
                  exact (cmpKey_cons_lt _ _ _ _ ((runTok_lt _ _).2
                    (Or.inr ⟨h1, Or.inr ⟨h2, hlt⟩⟩))).symm
                · rw [if_neg hlt]
                  exact (cmpKey_cons_gt _ _ _ _ ((runTok_lt _ _).2
                    (Or.inr ⟨h1.symm, Or.inr ⟨h2.symm, by omega⟩⟩))).symm
            · simp only [h1, h2, not_true_eq_false, if_false, not_false_eq_true, if_true]
              by_cases hlt : ((c1 :: t1).dropWhile (· == '0')).takeWhile isDigit <
                  ((c2 :: t2).dropWhile (· == '0')).takeWhile isDigit
              · rw [if_pos hlt]
                exact (cmpKey_cons_lt _ _ _ _ ((runTok_lt _ _).2
                  (Or.inr ⟨h1, Or.inl hlt⟩))).symm
              · rw [if_neg hlt]
                have hgt := lt_of_le_of_ne (not_lt.1 hlt) (fun e => h2 e.symm)
                exact (cmpKey_cons_gt _ _ _ _ ((runTok_lt _ _).2
                  (Or.inr ⟨h1.symm, Or.inl hgt⟩))).symm
          · simp only [h1, not_false_eq_true, if_true]
            by_cases hlt : (((c1 :: t1).dropWhile (· == '0')).takeWhile isDigit).length <
                (((c2 :: t2).dropWhile (· == '0')).takeWhile isDigit).length
            · rw [if_pos hlt]
              exact (cmpKey_cons_lt _ _ _ _ ((runTok_lt _ _).2 (Or.inl hlt))).symm
            · rw [if_neg hlt]
              exact (cmpKey_cons_gt _ _ _ _ ((runTok_lt _ _).2 (Or.inl (by omega)))).symm
        · have hd2' : isDigit c2 = false := by simpa using hd2
          simp only [hd1, hd2', ne_eq, Bool.true_eq_false, not_false_eq_true, if_true,
            Bool.false_eq_true, if_false]
          exact (cmpKey_cons_lt _ _ _ _ (runTok_lt_chTok ci _ _)).symm
        · have hd1' : isDigit c1 = false := by simpa using hd1
          simp only [hd1', hd2, ne_eq, Bool.false_eq_true, not_false_eq_true, if_true,
            if_false]
          exact (cmpKey_cons_gt _ _ _ _ (runTok_lt_chTok ci _ _)).symm
        · have hd1' : isDigit c1 = false := by simpa using hd1
          have hd2' : isDigit c2 = false := by simpa using hd2
          simp only [hd1', hd2', ne_eq, not_true_eq_false, if_false, Bool.not_false, if_true,
            Bool.false_eq_true]
          by_cases hu : (if ci then c1.toUpper else c1) = (if ci then c2.toUpper else c2)
          · have htok : chTok ci c1 = chTok ci c2 := by simp only [chTok, hu]
            rw [htok, cmpKey_cons_eq, ← ih (i + 1) t1 t2 hl1]
            simp only [hu, not_true_eq_false, if_false]
          · simp only [hu, not_false_eq_true, if_true]
            by_cases hlt : (if ci then c1.toUpper else c1) < (if ci then c2.toUpper else c2)
            · rw [if_pos hlt]
              exact (cmpKey_cons_lt _ _ _ _ ((chTok_lt ci c1 c2).2 hlt)).symm
            · rw [if_neg hlt]
              have hgt := lt_of_le_of_ne (not_lt.1 hlt) (fun e => hu e.symm)
              exact (cmpKey_cons_gt _ _ _ _ ((chTok_lt ci c2 c1).2 hgt)).symm

theorem naturalPass_eq_key (a b : GoString) (ci : Bool) :
    naturalPass a b ci = cmpKey (natKey ci a) (natKey ci b) :=
  naturalLoop_eq_key ci (a.length + 1) 0 a b (Nat.lt_succ_self _)

theorem cmpKey_lt_iff (x y : List NatTok) : cmpKey x y = .lt ↔ x < y := by
  unfold cmpKey
  split
  · rename_i h; simp [h]
  · rename_i h
    split <;> simp [h]

theorem cmpKey_eq_iff (x y : List NatTok) : cmpKey x y = .eq ↔ x = y := by
  unfold cmpKey
  split
  · rename_i h; simp [ne_of_lt h]
  · rename_i h
    split
    · rename_i h2; simp [ne_of_gt h2]
    · rename_i h2
      simp [le_antisymm (not_lt.1 h2) (not_lt.1 h)]

/-- The comparison `NaturalLess a b true` is the comparison of the keys of `a` and `b`:
those of the pass without regard to case and, when they agree, those of the pass with
regard to case. -/
theorem NaturalLess_iff_key (a b : GoString) :
    NaturalLess a b true = true ↔ lessKey a < lessKey b := by
  simp only [NaturalLess, NaturalCmp, naturalPass_eq_key, lessKey, Prod.Lex.lt_iff, if_true,
    decide_eq_true_eq]
  cases h : cmpKey (natKey true a) (natKey true b) with
  | lt =>
    have := (cmpKey_lt_iff _ _).1 h
    simp [this]
  | eq =>
    have := (cmpKey_eq_iff _ _).1 h
    simp [this, cmpKey_lt_iff]
  | gt =>
    have h1 : ¬ natKey true a < natKey true b := by
      rw [← cmpKey_lt_iff, h]; simp
    have h2 : natKey true a ≠ natKey true b := by
      rw [Ne, ← cmpKey_eq_iff, h]; simp
    simp [h1, h2]

theorem NaturalLess_asymm (a b : GoString) (h : NaturalLess a b true = true) :
    NaturalLess b a true = false := by
  rw [NaturalLess_iff_key] at h
  cases h2 : NaturalLess b a true
  · rfl
  · rw [NaturalLess_iff_key] at h2
    exact absurd h2 (lt_asymm h)

theorem NaturalLess_negTrans (a b c : GoString) (h1 : NaturalLess b a true = false)
    (h2 : NaturalLess c b true = false) : NaturalLess c a true = false := by
  have e1 : ¬ lessKey b < lessKey a := by rw [← NaturalLess_iff_key]; simp [h1]
  have e2 : ¬ lessKey c < lessKey b := by rw [← NaturalLess_iff_key]; simp [h2]
  cases h3 : NaturalLess c a true
  · rfl
  · rw [NaturalLess_iff_key] at h3
    exact absurd (lt_of_lt_of_le h3 (not_lt.1 e1)) e2

theorem run_decomp (r : GoString) :
    r = r.takeWhile (· == '0') ++
      ((r.dropWhile (· == '0')).takeWhile isDigit ++ digitRest r) := by
  simp only [digitRest, List.takeWhile_append_dropWhile]

theorem takeWhile_zero (r : GoString) :
    r.takeWhile (· == '0') = List.replicate (r.takeWhile (· == '0')).length '0' := by
  rw [List.eq_replicate_iff]
  refine ⟨rfl, ?_⟩
  intro c hc
  have := List.mem_takeWhile_imp hc
  simpa using this

theorem natKey_injective (n : Nat) : ∀ a b : GoString, a.length ≤ n →
    natKey false a = natKey false b → a = b := by
  induction n with
  | zero =>
    intro a b hlen h
    have ha : a = [] := List.length_eq_zero.1 (Nat.le_zero.1 hlen)
    subst ha
    cases b with
    | nil => rfl
    | cons c2 t2 =>
      rw [natKey_nil, natKey_cons] at h
      split at h <;> simp at h
  | succ n ih =>
    intro a b hlen h
    cases a with
    | nil =>
      cases b with
      | nil => rfl
      | cons c2 t2 =>
        rw [natKey_nil, natKey_cons] at h
        split at h <;> simp at h
    | cons c1 t1 =>
      cases b with
      | nil =>
        rw [natKey_nil, natKey_cons] at h
        split at h <;> simp at h
      | cons c2 t2 =>
        have hl1 : t1.length ≤ n := by simpa using hlen
        rw [natKey_cons, natKey_cons] at h
        by_cases hd1 : isDigit c1 = true <;> by_cases hd2 : isDigit c2 = true
        · simp only [hd1, hd2, if_true, List.cons.injEq] at h
          obtain ⟨htok, htail⟩ := h
          simp only [runTok, natTok_eq, true_and] at htok
          obtain ⟨_, hnr, hz⟩ := htok
          have hrest := ih _ _ (le_trans (digitRest_length c1 t1 hd1) hl1) htail
          rw [run_decomp (c1 :: t1), run_decomp (c2 :: t2), takeWhile_zero (c1 :: t1),
            takeWhile_zero (c2 :: t2), hz, hnr, hrest]
        · have hd2' : isDigit c2 = false := by simpa using hd2
          simp only [hd1, hd2', if_true, Bool.false_eq_true, if_false, List.cons.injEq] at h
          have := h.1
          simp [runTok, chTok, natTok_eq] at this
        · have hd1' : isDigit c1 = false := by simpa using hd1
          simp only [hd1', hd2, if_true, Bool.false_eq_true, if_false, List.cons.injEq] at h
          have := h.1
          simp [runTok, chTok, natTok_eq] at this
        · have hd1' : isDigit c1 = false := by simpa using hd1
          have hd2' : isDigit c2 = false := by simpa using hd2
          simp only [hd1', hd2', Bool.false_eq_true, if_false, List.cons.injEq] at h
          obtain ⟨htok, htail⟩ := h
          have hc : c1 = c2 := by simpa [chTok, natTok_eq] using htok
          rw [hc, ih t1 t2 hl1 htail]

/-- The comparison `NaturalLess` without regard to case leaves no two different strings
tied: the second pass tells apart what the first does not. -/
theorem NaturalLess_total (a b : GoString) (h1 : NaturalLess a b true = false)
    (h2 : NaturalLess b a true = false) : a = b := by
  have e1 : ¬ lessKey a < lessKey b := by rw [← NaturalLess_iff_key]; simp [h1]
  have e2 : ¬ lessKey b < lessKey a := by rw [← NaturalLess_iff_key]; simp [h2]
  have he : lessKey a = lessKey b := le_antisymm (not_lt.1 e2) (not_lt.1 e1)
  have hk : natKey false a = natKey false b := by
    have := congrArg (fun k => (ofLex k).2) he
    simpa [lessKey] using this
  exact natKey_injective a.length a b (Nat.le_refl _) hk

/-! ## `sort.Slice` -/

theorem insertLast_perm {α : Type} (less : α → α → Bool) (x : α) (acc : List α) :
    (insertLast less x acc).Perm (x :: acc) := by
  induction acc with
  | nil => exact List.Perm.refl _
  | cons y ys ih =>
    unfold insertLast
    split
    · exact (List.Perm.cons y ih).trans (List.Perm.swap x y ys)
    · exact List.Perm.refl _

theorem insertLast_sorted {α : Type} (less : α → α → Bool)
    (hasymm : ∀ a b, less a b = true → less b a = false)
    (hneg : ∀ a b c, less a b = false → less b c = false → less a c = false)
    (x : α) (acc : List α) (h : acc.Pairwise (fun a b => less a b = false)) :
    (insertLast less x acc).Pairwise (fun a b => less a b = false) := by
  induction acc with
  | nil => simp [insertLast]
  | cons y ys ih =>
    rw [List.pairwise_cons] at h
    unfold insertLast
    split
    · rename_i hxy
      rw [List.pairwise_cons]
      refine ⟨?_, ih h.2⟩
      intro z hz
      rcases List.mem_cons.1 ((insertLast_perm less x ys).mem_iff.1 hz) with hz | hz
      · rw [hz]; exact hasymm x y hxy
      · exact h.1 z hz
    · rename_i hxy
      have hxy : less x y = false := by simpa using hxy
      rw [List.pairwise_cons]
      refine ⟨?_, List.pairwise_cons.2 h⟩
      intro z hz
      rcases List.mem_cons.1 hz with hz | hz
      · rw [hz]; exact hxy
      · exact hneg x y z hxy (h.1 z hz)

theorem foldl_insertLast_perm {α : Type} (less : α → α → Bool) (l acc : List α) :
    (l.foldl (fun acc x => insertLast less x acc) acc).Perm (l.reverse ++ acc) := by
  induction l generalizing acc with
  | nil => exact List.Perm.refl _
  | cons x rest ih =>
    simp only [List.foldl_cons, List.reverse_cons, List.append_assoc, List.singleton_append]
    exact (ih _).trans (List.Perm.append_left _ (insertLast_perm less x acc))

theorem foldl_insertLast_sorted {α : Type} (less : α → α → Bool)
    (hasymm : ∀ a b, less a b = true → less b a = false)
    (hneg : ∀ a b c, less a b = false → less b c = false → less a c = false)
    (l acc : List α) (h : acc.Pairwise (fun a b => less a b = false)) :
    (l.foldl (fun acc x => insertLast less x acc) acc).Pairwise (fun a b => less a b = false) := by
  induction l generalizing acc with
  | nil => exact h
  | cons x rest ih => exact ih _ (insertLast_sorted less hasymm hneg x acc h)

theorem sortSlice_perm {α : Type} (less : α → α → Bool) (l : List α) :
    (sortSlice less l).Perm l := by
  unfold sortSlice
  have := foldl_insertLast_perm less l []
  rw [List.append_nil] at this
  exact (List.reverse_perm _).trans (this.trans (List.reverse_perm _))

theorem sortSlice_sorted {α : Type} (less : α → α → Bool)
    (hasymm : ∀ a b, less a b = true → less b a = false)
    (hneg : ∀ a b c, less a b = false → less b c = false → less a c = false)
    (l : List α) : (sortSlice less l).Pairwise (fun a b => less b a = false) := by
  unfold sortSlice
  rw [List.pairwise_reverse]
  exact foldl_insertLast_sorted less hasymm hneg l [] List.Pairwise.nil

theorem sorted_perm_unique {α : Type} (less : α → α → Bool)
    (hasymm : ∀ a b, less a b = true → less b a = false) (l1 l2 : List α)
    (hp : l1.Perm l2) (h1 : l1.Pairwise (fun a b => less b a = false))
    (h2 : l2.Pairwise (fun a b => less b a = false))
    (htie : ∀ a ∈ l1, ∀ b ∈ l1, less a b = false → less b a = false → a = b) : l1 = l2 := by
  have hirr : ∀ a, less a a = false := by
    intro a
    cases h : less a a
    · rfl
    · rw [hasymm a a h] at h; exact absurd h (by simp)
  induction l1 generalizing l2 with
  | nil => exact (List.Perm.nil_eq hp)
  | cons a t1 ih =>
    cases l2 with
    | nil => exact absurd hp.length_eq (by simp)
    | cons b t2 =>
      rw [List.pairwise_cons] at h1 h2
      have hbmem : b ∈ a :: t1 := hp.mem_iff.2 (by simp)
      have hab : less a b = false := by
        rcases List.mem_cons.1 (hp.mem_iff.1 (List.mem_cons_self a t1)) with e | e
        · rw [e]; exact hirr b
        · exact h2.1 a e
      have hba : less b a = false := by
        rcases List.mem_cons.1 hbmem with e | e
        · rw [e]; exact hirr a
        · exact h1.1 b e
      have e := htie a (by simp) b hbmem hab hba
      subst e
      have := ih t2 (List.Perm.cons_inv hp) h1.2 h2.2
        (fun x hx y hy => htie x (List.mem_cons_of_mem _ hx) y (List.mem_cons_of_mem _ hy))
      rw [this]

/-! ## The walk -/

theorem walkFn_some (p : GoString) (info : FileInfo) (list : List GoString) :
    walkFn p (some info) list =
      .ok (if HasPrefix info.name ['.'] then (list, if info.isDir then some .skipDir else none)
        else if !info.isDir && HasSuffix (ToLower p) ['.', 'p', 'd', 'f'] then (list ++ [p], none)
        else (list, none)) := by
  simp only [walkFn]
  split
  · split <;> rfl
  · split <;> rfl

mutual
theorem walk_collected (path name : GoString) (node : Node) (list l1 : List GoString)
    (e : Option WalkErr) (h : walk path name node list = .ok (l1, e)) :
    l1 = list ++ collected path name node ∧
      e = if node.isDir && HasPrefix name ['.'] then some .skipDir else none := by
  match node with
  | .file reg =>
    rw [walk, walkFn_some] at h
    simp only [collected, Node.isDir, Bool.false_and]
    by_cases hh : HasPrefix name ['.'] = true
    · simp [hh] at h; simp [hh, h.1.symm, h.2.symm]
    · by_cases hs : HasSuffix (ToLower path) ['.', 'p', 'd', 'f'] = true
      · simp [hh, hs] at h; simp [hh, hs, h.1.symm, h.2.symm]
      · simp [hh, hs] at h; simp [hh, hs, h.1.symm, h.2.symm]
  | .noStat =>
    simp [walk, walkFn] at h
  | .dir readable entries =>
    rw [walk, walkFn_some] at h
    simp only [collected, Node.isDir, Bool.true_and]
    by_cases hh : HasPrefix name ['.'] = true
    · simp [hh] at h; simp [hh, h.1.symm, h.2.symm]
    · cases readable with
      | false => simp [hh] at h; simp [hh, h.1.symm, h.2.symm]
      | true =>
        simp [hh] at h
        have := walkEntries_collected path entries list l1 e h
        simp [hh, this.1, this.2]
theorem walkEntries_collected (path : GoString) (entries : List (GoString × Node))
    (list l1 : List GoString) (e : Option WalkErr)
    (h : walkEntries path entries list = .ok (l1, e)) :
    l1 = list ++ collectedEntries path entries ∧ e = none := by
  match entries with
  | [] =>
    simp [walkEntries] at h
    simp [collectedEntries, h.1.symm, h.2.symm]
  | (name, node) :: rest =>
    simp only [collectedEntries]
    match node with
    | .noStat => simp [walkEntries, walkFn] at h
    | .file reg =>
      rw [walkEntries] at h
      rotate_left
      · intro hc; cases hc
      cases hw : walk (Join path name) name (.file reg) list with
      | error err => rw [hw] at h; simp at h
      | ok r =>
        obtain ⟨l2, e2⟩ := r
        rw [hw] at h
        have h1 := walk_collected (Join path name) name (.file reg) list l2 e2 hw
        simp only [Node.isDir, Bool.false_and, Bool.false_eq_true, if_false] at h1
        obtain ⟨h1a, h1b⟩ := h1
        subst h1b
        simp only [ne_eq, not_true_eq_false, false_and, if_false] at h
        have h2 := walkEntries_collected path rest l2 l1 e h
        rw [h2.1, h1a]
        simp [h2.2]
    | .dir readable es =>
      rw [walkEntries] at h
      rotate_left
      · intro hc; cases hc
      cases hw : walk (Join path name) name (.dir readable es) list with
      | error err => rw [hw] at h; simp at h
      | ok r =>
        obtain ⟨l2, e2⟩ := r
        rw [hw] at h
        have h1 := walk_collected (Join path name) name (.dir readable es) list l2 e2 hw
        obtain ⟨h1a, h1b⟩ := h1
        have hstop : ¬ (e2 ≠ none ∧ (!(Node.dir readable es).isDir ∨ e2 ≠ some .skipDir)) := by
          rw [h1b]
          simp only [Node.isDir, Bool.true_and]
          split <;> simp
        simp only [hstop, if_false] at h
        have h2 := walkEntries_collected path rest l2 l1 e h
        rw [h2.1, h1a]
        simp [h2.2]
end

theorem Walk_collected (fs : Node) (root : GoString) (list l1 : List GoString)
    (e : Option WalkErr) (h : Walk fs root list = .ok (l1, e)) :
    l1 = list ++ rootCollected fs root ∧ e = none := by
  unfold Walk at h
  unfold rootCollected
  cases hn : entryAt fs root with
  | none => rw [hn] at h; simp [walkFn] at h
  | some node =>
    rw [hn] at h
    match node with
    | .noStat => simp [walkFn] at h
    | .file reg =>
      simp only at h
      cases hw : walk root (baseName root) (.file reg) list with
      | error err => rw [hw] at h; simp at h
      | ok r =>
        obtain ⟨l2, e2⟩ := r
        rw [hw] at h
        obtain ⟨ha, hb⟩ := walk_collected _ _ _ _ _ _ hw
        simp only [Node.isDir, Bool.false_and, Bool.false_eq_true, if_false] at hb
        subst hb
        simp at h
        simp [← h.1, ← h.2, ha]
    | .dir readable es =>
      simp only at h
      cases hw : walk root (baseName root) (.dir readable es) list with
      | error err => rw [hw] at h; simp at h
      | ok r =>
        obtain ⟨l2, e2⟩ := r
        rw [hw] at h
        obtain ⟨ha, hb⟩ := walk_collected _ _ _ _ _ _ hw
        simp only [Node.isDir, Bool.true_and] at hb
        by_cases hh : HasPrefix (baseName root) ['.'] = true
        · simp [hh] at hb; subst hb
          simp at h
          simp [← h.1, ← h.2, ha]
        · simp [hh] at hb; subst hb
          simp at h
          simp [← h.1, ← h.2, ha]

mutual
theorem walk_error (path name : GoString) (node : Node) (list : List GoString) (e : Error)
    (h : walk path name node list = .error e) : e = .nilInfo := by
  match node with
  | .file reg => rw [walk, walkFn_some] at h; simp at h
  | .noStat => simp [walk, walkFn] at h; exact h.symm
  | .dir readable entries =>
    rw [walk, walkFn_some] at h
    by_cases hh : HasPrefix name ['.'] = true
    · simp [hh] at h
    · cases readable with
      | false => simp [hh] at h
      | true =>
        simp [hh] at h
        exact walkEntries_error path entries _ e h
theorem walkEntries_error (path : GoString) (entries : List (GoString × Node))
    (list : List GoString) (e : Error) (h : walkEntries path entries list = .error e) :
    e = .nilInfo := by
  match entries with
  | [] => simp [walkEntries] at h
  | (name, node) :: rest =>
    match node with
    | .noStat => simp [walkEntries, walkFn] at h; exact h.symm
    | .file reg =>
      rw [walkEntries] at h
      rotate_left
      · intro hc; cases hc
      cases hw : walk (Join path name) name (.file reg) list with
      | error err =>
        rw [hw] at h
        have := walk_error _ _ _ _ _ hw
        simp at h; rw [← h]; exact this
      | ok r =>
        obtain ⟨l2, e2⟩ := r
        rw [hw] at h
        simp only at h
        split at h
        · simp at h
        · exact walkEntries_error path rest l2 e h
    | .dir readable es =>
      rw [walkEntries] at h
      rotate_left
      · intro hc; cases hc
      cases hw : walk (Join path name) name (.dir readable es) list with
      | error err =>
        rw [hw] at h
        have := walk_error _ _ _ _ _ hw
        simp at h; rw [← h]; exact this
      | ok r =>
        obtain ⟨l2, e2⟩ := r
        rw [hw] at h
        simp only at h
        split at h
        · simp at h
        · exact walkEntries_error path rest l2 e h
end

theorem Walk_error (fs : Node) (root : GoString) (list : List GoString) (e : Error)
    (h : Walk fs root list = .error e) : e = .nilInfo := by
  unfold Walk at h
  cases hn : entryAt fs root with
  | none => rw [hn] at h; simp [walkFn] at h; exact h.symm
  | some node =>
    rw [hn] at h
    match node with
    | .noStat => simp [walkFn] at h; exact h.symm
    | .file reg =>
      simp only at h
      cases hw : walk root (baseName root) (.file reg) list with
      | error err =>
        rw [hw] at h
        have := walk_error _ _ _ _ _ hw
        simp at h; rw [← h]; exact this
      | ok r => rw [hw] at h; simp only at h; split at h <;> simp at h
    | .dir readable es =>
      simp only at h
      cases hw : walk root (baseName root) (.dir readable es) list with
      | error err =>
        rw [hw] at h
        have := walk_error _ _ _ _ _ hw
        simp at h; rw [← h]; exact this
      | ok r => rw [hw] at h; simp only at h; split at h <;> simp at h

theorem collectLoop_error (fs : Node) (roots : List GoString) (list : List GoString)
    (e : Error) (h : collectLoop fs roots list = .error e) : e = .nilInfo := by
  induction roots generalizing list with
  | nil => simp [collectLoop] at h
  | cons root rest ih =>
    rw [collectLoop] at h
    cases hw : Walk fs root list with
    | error err =>
      rw [hw] at h
      have := Walk_error _ _ _ _ hw
      simp at h; rw [← h]; exact this
    | ok r2 =>
      obtain ⟨l2, e2⟩ := r2
      rw [hw] at h
      obtain ⟨_, hb⟩ := Walk_collected fs root list l2 e2 hw
      subst hb
      simp only [ne_eq, not_true_eq_false, if_false] at h
      exact ih l2 h

theorem collectLoop_ok (fs : Node) (roots : List GoString) (list l1 : List GoString)
    (h : collectLoop fs roots list = .ok l1) :
    l1 = list ++ roots.flatMap (rootCollected fs) := by
  induction roots generalizing list with
  | nil => simp [collectLoop] at h; simp [h]
  | cons root rest ih =>
    rw [collectLoop] at h
    cases hw : Walk fs root list with
    | error err => rw [hw] at h; simp at h
    | ok r2 =>
      obtain ⟨l2, e2⟩ := r2
      rw [hw] at h
      obtain ⟨ha, hb⟩ := Walk_collected fs root list l2 e2 hw
      subst hb
      simp only [ne_eq, not_true_eq_false, if_false] at h
      rw [ih l2 h, ha]
      simp [List.flatMap_cons]

theorem collectFiles_ok (fs : Node) (order : List GoString → List GoString)
    (set L : List GoString) (h : collectFiles fs order set = .ok L) :
    collectLoop fs (order set) [] = .ok ((order set).flatMap (rootCollected fs)) ∧
      L = sortSlice (fun a b => NaturalLess a b true) ((order set).flatMap (rootCollected fs)) := by
  unfold collectFiles at h
  cases hc : collectLoop fs (order set) [] with
  | error e => rw [hc] at h; simp at h
  | ok l =>
    rw [hc] at h
    have := collectLoop_ok fs (order set) [] l hc
    simp only [List.nil_append] at this
    subst this
    simp at h
    exact ⟨rfl, h.symm⟩

/-! ## The paths collected end in `.pdf` -/

mutual
theorem collected_suffix (path name : GoString) (node : Node) (p : GoString)
    (h : p ∈ collected path name node) :
    HasSuffix (ToLower p) ['.', 'p', 'd', 'f'] = true := by
  match node with
  | .file reg =>
    rw [collected] at h
    split at h
    · simp at h
    · split at h
      · rename_i hs
        simp at h; rw [h]; exact hs
      · simp at h
  | .noStat => simp [collected] at h
  | .dir readable entries =>
    rw [collected] at h
    split at h
    · simp at h
    · split at h
      · exact collectedEntries_suffix path entries p h
      · simp at h
theorem collectedEntries_suffix (path : GoString) (entries : List (GoString × Node))
    (p : GoString) (h : p ∈ collectedEntries path entries) :
    HasSuffix (ToLower p) ['.', 'p', 'd', 'f'] = true := by
  match entries with
  | [] => simp [collectedEntries] at h
  | (name, node) :: rest =>
    rw [collectedEntries] at h
    rcases List.mem_append.1 h with h | h
    · exact collected_suffix (Join path name) name node p h
    · exact collectedEntries_suffix path rest p h
end

theorem rootCollected_suffix (fs : Node) (root p : GoString) (h : p ∈ rootCollected fs root) :
    HasSuffix (ToLower p) ['.', 'p', 'd', 'f'] = true := by
  unfold rootCollected at h
  split at h
  · exact collected_suffix _ _ _ p h
  · simp at h

theorem collectFiles_mem (fs : Node) (order : List GoString → List GoString)
    (set L : List GoString) (h : collectFiles fs order set = .ok L) (p : GoString) :
    p ∈ L ↔ ∃ root ∈ order set, p ∈ rootCollected fs root := by
  obtain ⟨_, h2⟩ := collectFiles_ok fs order set L h
  rw [h2, (sortSlice_perm _ _).mem_iff, List.mem_flatMap]

theorem suffix_split (p s : GoString) (h : HasSuffix (ToLower p) s = true) :
    s.length ≤ p.length ∧ ToLower (p.drop (p.length - s.length)) = s := by
  simp only [HasSuffix, List.isSuffixOf_iff_suffix] at h
  obtain ⟨t, ht⟩ := h
  have hlen : p.length = t.length + s.length := by
    have := congrArg List.length ht
    simpa [ToLower] using this.symm
  refine ⟨by omega, ?_⟩
  have hd : (ToLower p).drop (p.length - s.length) = s := by
    rw [← ht, hlen, Nat.add_sub_cancel]
    exact List.drop_left _ _
  exact (show ToLower (p.drop (p.length - s.length)) =
    (ToLower p).drop (p.length - s.length) by simp [ToLower, List.map_drop]).trans hd

/-! ## Where the collected paths lie -/

theorem Join_mkPath (cs : List GoString) (n : GoString) (hcs : ∀ c ∈ cs, validName c = true)
    (hn : validName n = true) : Join (mkPath cs) n = mkPath (cs ++ [n]) := by
  have hn' := (validName_iff n).1 hn
  have hall : ∀ c ∈ cs ++ [n], validName c = true := by
    intro c hc
    rcases List.mem_append.1 hc with hc | hc
    · exact hcs c hc
    · simp at hc; rw [hc]; exact hn
  have hj : Join (mkPath cs) n = Clean (mkPath cs ++ '/' :: n) := by
    simp [Join, mkPath, hn'.1]
  rw [hj]
  cases cs with
  | nil =>
    have hsp : splitSlash (mkPath [] ++ '/' :: n) = [[], [], n] := by
      simp [mkPath, joinSlash, splitSlash, splitSlash_noSlash n hn'.2.1]
    simp only [Clean, mkPath, joinSlash, List.nil_append, List.cons_append, decide_True, if_true]
    simp only [mkPath, joinSlash, List.nil_append, List.cons_append] at hsp
    rw [hsp]
    simp [cleanStep, hn'.1, hn'.2.2.1, hn'.2.2.2, joinSlash]
  | cons c rest =>
    have : mkPath (c :: rest) ++ '/' :: n = mkPath ((c :: rest) ++ [n]) := by
      have hjs := joinSlash_append_singleton (c :: rest) (by simp) n
      simp only [mkPath, List.cons_append] at hjs ⊢
      rw [hjs]
    rw [this]
    exact Clean_mkPath _ hall

theorem findEntry_wf (n : GoString) (es : List (GoString × Node)) (child : Node)
    (hwf : entriesWellFormed es = true) (h : findEntry n es = some child) :
    validName n = true ∧ child.wellFormed = true := by
  induction es with
  | nil => simp [findEntry] at h
  | cons e rest ih =>
    obtain ⟨m, node⟩ := e
    simp only [entriesWellFormed, Bool.and_eq_true] at hwf
    simp only [findEntry] at h
    split at h
    · rename_i hm
      simp at h
      subst hm; subst h
      exact ⟨hwf.1.1.1, hwf.1.2⟩
    · exact ih hwf.2 h

theorem lookup_wf (node : Node) (names : List GoString) (target : Node)
    (hwf : node.wellFormed = true) (h : lookup node names = some target) :
    target.wellFormed = true ∧ ∀ n ∈ names, validName n = true := by
  induction names generalizing node with
  | nil => simp [lookup] at h; subst h; exact ⟨hwf, by simp⟩
  | cons n rest ih =>
    match node with
    | .file _ => simp [lookup] at h
    | .noStat => simp [lookup] at h
    | .dir r es =>
      simp only [lookup] at h
      cases hf : findEntry n es with
      | none => rw [hf] at h; simp at h
      | some child =>
        rw [hf] at h
        simp only [Node.wellFormed] at hwf
        obtain ⟨hv, hc⟩ := findEntry_wf n es child hwf hf
        obtain ⟨h1, h2⟩ := ih child hc h
        refine ⟨h1, ?_⟩
        intro m hm
        rcases List.mem_cons.1 hm with hm | hm
        · rw [hm]; exact hv
        · exact h2 m hm

mutual
theorem collected_mem_fwd (cs : List GoString) (name : GoString) (node : Node) (p : GoString)
    (hcs : ∀ c ∈ cs, validName c = true) (hwf : node.wellFormed = true)
    (h : p ∈ collected (mkPath cs) name node) :
    HasPrefix name ['.'] = false ∧ ∃ names reg,
      (∀ m ∈ names, validName m = true ∧ HasPrefix m ['.'] = false) ∧
      p = mkPath (cs ++ names) ∧ lookup node names = some (.file reg) := by
  match node with
  | .file reg =>
    rw [collected] at h
    split at h
    · simp at h
    · rename_i hh
      split at h
      · simp at h
        exact ⟨by simpa using hh, [], reg, by simp, by simp [h], rfl⟩
      · simp at h
  | .noStat => simp [collected] at h
  | .dir readable entries =>
    rw [collected] at h
    split at h
    · simp at h
    · rename_i hh
      split at h
      · simp only [Node.wellFormed] at hwf
        obtain ⟨n, names, child, reg, hf, hv, hhid, hnames, hp, hl⟩ :=
          collectedEntries_mem_fwd cs entries p hcs hwf h
        refine ⟨by simpa using hh, n :: names, reg, ?_, hp, ?_⟩
        · intro m hm
          rcases List.mem_cons.1 hm with hm | hm
          · rw [hm]; exact ⟨hv, hhid⟩
          · exact hnames m hm
        · simp [lookup, hf, hl]
      · simp at h
theorem collectedEntries_mem_fwd (cs : List GoString) (entries : List (GoString × Node))
    (p : GoString) (hcs : ∀ c ∈ cs, validName c = true)
    (hwf : entriesWellFormed entries = true)
    (h : p ∈ collectedEntries (mkPath cs) entries) :
    ∃ n names child reg, findEntry n entries = some child ∧ validName n = true ∧
      HasPrefix n ['.'] = false ∧
      (∀ m ∈ names, validName m = true ∧ HasPrefix m ['.'] = false) ∧
      p = mkPath (cs ++ n :: names) ∧ lookup child names = some (.file reg) := by
  match entries with
  | [] => simp [collectedEntries] at h
  | (name, node) :: rest =>
    rw [collectedEntries] at h
    simp only [entriesWellFormed, Bool.and_eq_true] at hwf
    obtain ⟨⟨⟨hv, hnone⟩, hnode⟩, hrest⟩ := hwf
    rcases List.mem_append.1 h with h | h
    · rw [Join_mkPath cs name hcs hv] at h
      have hcs2 : ∀ c ∈ cs ++ [name], validName c = true := by
        intro c hc
        rcases List.mem_append.1 hc with hc | hc
        · exact hcs c hc
        · simp at hc; rw [hc]; exact hv
      obtain ⟨hhid, names, reg, hnames, hp, hl⟩ :=
        collected_mem_fwd (cs ++ [name]) name node p hcs2 hnode h
      exact ⟨name, names, node, reg, by simp [findEntry], hv, hhid, hnames,
        by simpa using hp, hl⟩
    · obtain ⟨n, names, child, reg, hf, hv2, hhid, hnames, hp, hl⟩ :=
        collectedEntries_mem_fwd cs rest p hcs hrest h
      have hne : name ≠ n := by
        intro e
        rw [e, hf] at hnone
        simp at hnone
      exact ⟨n, names, child, reg, by simp [findEntry, hne, hf], hv2, hhid, hnames, hp, hl⟩
end

mutual
theorem collected_nodup (cs : List GoString) (name : GoString) (node : Node)
    (hcs : ∀ c ∈ cs, validName c = true) (hwf : node.wellFormed = true) :
    (collected (mkPath cs) name node).Nodup := by
  match node with
  | .file reg =>
    rw [collected]
    split
    · exact List.nodup_nil
    · split
      · exact List.nodup_singleton _
      · exact List.nodup_nil
  | .noStat => simp [collected]
  | .dir readable entries =>
    rw [collected]
    split
    · exact List.nodup_nil
    · split
      · simp only [Node.wellFormed] at hwf
        exact collectedEntries_nodup cs entries hcs hwf
      · exact List.nodup_nil
theorem collectedEntries_nodup (cs : List GoString) (entries : List (GoString × Node))
    (hcs : ∀ c ∈ cs, validName c = true) (hwf : entriesWellFormed entries = true) :
    (collectedEntries (mkPath cs) entries).Nodup := by
  match entries with
  | [] => simp [collectedEntries]
  | (name, node) :: rest =>
    rw [collectedEntries]
    have hwf0 := hwf
    simp only [entriesWellFormed, Bool.and_eq_true] at hwf
    obtain ⟨⟨⟨hv, hnone⟩, hnode⟩, hrest⟩ := hwf
    have hcs2 : ∀ c ∈ cs ++ [name], validName c = true := by
      intro c hc
      rcases List.mem_append.1 hc with hc | hc
      · exact hcs c hc
      · simp at hc; rw [hc]; exact hv
    rw [List.nodup_append]
    refine ⟨?_, collectedEntries_nodup cs rest hcs hrest, ?_⟩
    · rw [Join_mkPath cs name hcs hv]
      exact collected_nodup (cs ++ [name]) name node hcs2 hnode
    · intro p hp1 hp2
      rw [Join_mkPath cs name hcs hv] at hp1
      obtain ⟨_, names1, _, hn1, e1, _⟩ :=
        collected_mem_fwd (cs ++ [name]) name node p hcs2 hnode hp1
      obtain ⟨n, names2, child, _, hf, hv2, _, hn2, e2, _⟩ :=
        collectedEntries_mem_fwd cs rest p hcs hrest hp2
      have hinj := mkPath_injective _ _ (by
        intro c hc
        rcases List.mem_append.1 hc with hc | hc
        · exact hcs2 c hc
        · exact (hn1 c hc).1) (by
        intro c hc
        rcases List.mem_append.1 hc with hc | hc
        · exact hcs c hc
        · rcases List.mem_cons.1 hc with hc | hc
          · rw [hc]; exact hv2
          · exact (hn2 c hc).1) (e1.symm.trans e2)
      have hname : name = n := by
        have := List.append_cancel_left (by simpa using hinj :
          cs ++ (name :: names1) = cs ++ (n :: names2))
        exact (List.cons.inj this).1
      rw [hname, hf] at hnone
      simp at hnone
end

theorem pathElems_mkPath (cs : List GoString) (h : ∀ c ∈ cs, validName c = true) :
    pathElems (mkPath cs) = cs := by
  simp [pathElems, words_mkPath cs h]

theorem HasPrefix_dot_dotdot (t : GoString) (h : HasPrefix t ['.'] = false) :
    HasPrefix t ['.', '.'] = false := by
  match t with
  | [] => rfl
  | c :: r =>
    simp only [HasPrefix, List.isPrefixOf] at h ⊢
    simp only [Bool.and_true] at h
    simp [h]

/-- What the walk of a canonical root collects in a well-formed file system: no path
twice, and only paths whose elements are those of the root followed by names that are
not hidden. -/
theorem rootCollected_spec (fs : Node) (hwf : fs.wellFormed = true) (cs : List GoString)
    (hcs : ∀ c ∈ cs, validName c = true) :
    (rootCollected fs (mkPath cs)).Nodup ∧
      ∀ p ∈ rootCollected fs (mkPath cs), ∃ names,
        (∀ m ∈ names, validName m = true ∧ HasPrefix m ['.'] = false) ∧
        p = mkPath (cs ++ names) := by
  unfold rootCollected
  simp only [entryAt, pathElems_mkPath cs hcs]
  cases hl : lookup fs cs with
  | none => simp
  | some node =>
    simp only
    obtain ⟨hnode, _⟩ := lookup_wf fs cs node hwf hl
    refine ⟨collected_nodup cs _ node hcs hnode, ?_⟩
    intro p hp
    obtain ⟨_, names, _, hn, e, _⟩ := collected_mem_fwd cs _ node p hcs hnode hp
    exact ⟨names, hn, e⟩

theorem rootCollected_disjoint (fs : Node) (hwf : fs.wellFormed = true) (r1 r2 : GoString)
    (h1 : isCanonical r1 = true) (h2 : isCanonical r2 = true) (hne : r1 ≠ r2)
    (hu12 : under r1 r2 = false) (hu21 : under r2 r1 = false) :
    List.Disjoint (rootCollected fs r1) (rootCollected fs r2) := by
  obtain ⟨c1, v1, rfl⟩ := canonical_exists r1 h1
  obtain ⟨c2, v2, rfl⟩ := canonical_exists r2 h2
  intro p hp1 hp2
  obtain ⟨n1, hn1, e1⟩ := (rootCollected_spec fs hwf c1 v1).2 p hp1
  obtain ⟨n2, hn2, e2⟩ := (rootCollected_spec fs hwf c2 v2).2 p hp2
  have hv : ∀ (c : List GoString) (n : List GoString), (∀ x ∈ c, validName x = true) →
      (∀ m ∈ n, validName m = true ∧ HasPrefix m ['.'] = false) →
      ∀ x ∈ c ++ n, validName x = true := by
    intro c n hc hn x hx
    rcases List.mem_append.1 hx with hx | hx
    · exact hc x hx
    · exact (hn x hx).1
  have hinj := mkPath_injective _ _ (hv c1 n1 v1 hn1) (hv c2 n2 v2 hn2) (e1.symm.trans e2)
  rcases List.append_eq_append_iff.1 hinj with ⟨a, ha, hb⟩ | ⟨a, ha, hb⟩
  · -- the elements of `r2` are those of `r1` followed by `a`
    cases a with
    | nil => simp at ha; exact hne (by rw [ha])
    | cons t ts =>
      have ht := (hn1 t (by rw [hb]; simp)).2
      have : under (mkPath c2) (mkPath c1) = true :=
        (under_mkPath c2 c1 v2 v1).2 ⟨t, ts, ha, HasPrefix_dot_dotdot t ht⟩
      rw [hu21] at this
      exact absurd this (by simp)
  · cases a with
    | nil => simp at ha; exact hne (by rw [ha])
    | cons t ts =>
      have ht := (hn2 t (by rw [hb]; simp)).2
      have : under (mkPath c1) (mkPath c2) = true :=
        (under_mkPath c1 c2 v1 v2).2 ⟨t, ts, ha, HasPrefix_dot_dotdot t ht⟩
      rw [hu12] at this
      exact absurd this (by simp)

theorem rootPathsFrom_resolves (realpath : GoString → Option GoString)
    (order : Nat → List GoString → List GoString) (paths : List GoString) (n : Nat)
    (set S : List GoString) (h : rootPathsFrom realpath order n paths set = .ok S) :
    ∀ p ∈ paths, ∃ q, realpath p = some q := by
  induction paths generalizing n set with
  | nil => simp
  | cons path rest ih =>
    simp only [rootPathsFrom] at h
    cases hr : realpath path with
    | none => rw [hr] at h; simp at h
    | some actual =>
      rw [hr] at h
      simp only at h
      have hrest : ∀ p ∈ rest, ∃ q, realpath p = some q := by
        split at h
        · exact ih _ _ h
        · split at h
          · simp at h
          · exact ih _ _ h
      intro p hp
      rcases List.mem_cons.1 hp with hp | hp
      · rw [hp]; exact ⟨actual, hr⟩
      · exact hrest p hp

/-! ## The walk of a healthy tree -/

mutual
theorem walk_ok_of_healthy (path name : GoString) (node : Node) (list : List GoString)
    (h : node.healthy = true) : ∃ r, walk path name node list = .ok r := by
  match node with
  | .file reg => rw [walk, walkFn_some]; exact ⟨_, rfl⟩
  | .noStat => simp [Node.healthy] at h
  | .dir readable entries =>
    simp only [Node.healthy, Bool.and_eq_true] at h
    rw [walk, walkFn_some]
    by_cases hh : HasPrefix name ['.'] = true
    · simp [hh]
    · simp only [hh, h.1, Bool.false_eq_true, if_false, Bool.not_true, Bool.false_and,
        Bool.false_or, ne_eq, not_true_eq_false, decide_False]
      exact walkEntries_ok_of_healthy path entries _ h.2
theorem walkEntries_ok_of_healthy (path : GoString) (entries : List (GoString × Node))
    (list : List GoString) (h : entriesHealthy entries = true) :
    ∃ r, walkEntries path entries list = .ok r := by
  match entries with
  | [] => exact ⟨_, by rw [walkEntries]⟩
  | (name, node) :: rest =>
    simp only [entriesHealthy, Bool.and_eq_true] at h
    match node with
    | .noStat => simp [Node.healthy] at h
    | .file reg =>
      rw [walkEntries]
      rotate_left
      · intro hc; cases hc
      obtain ⟨r, hr⟩ := walk_ok_of_healthy (Join path name) name (.file reg) list h.1
      rw [hr]
      simp only
      split
      · exact ⟨_, rfl⟩
      · exact walkEntries_ok_of_healthy path rest _ h.2
    | .dir readable es =>
      rw [walkEntries]
      rotate_left
      · intro hc; cases hc
      obtain ⟨r, hr⟩ := walk_ok_of_healthy (Join path name) name (.dir readable es) list h.1
      rw [hr]
      simp only
      split
      · exact ⟨_, rfl⟩
      · exact walkEntries_ok_of_healthy path rest _ h.2
end

theorem Walk_ok_of_healthy (fs : Node) (root : GoString) (list : List GoString) (node : Node)
    (hn : entryAt fs root = some node) (h : node.healthy = true) :
    ∃ r, Walk fs root list = .ok r := by
  unfold Walk
  rw [hn]
  match node with
  | .noStat => simp [Node.healthy] at h
  | .file reg =>
    obtain ⟨r, hr⟩ := walk_ok_of_healthy root (baseName root) (.file reg) list h
    simp only [hr]
    split <;> exact ⟨_, rfl⟩
  | .dir readable es =>
    obtain ⟨r, hr⟩ := walk_ok_of_healthy root (baseName root) (.dir readable es) list h
    simp only [hr]
    split <;> exact ⟨_, rfl⟩

theorem collectLoop_ok_of_healthy (fs : Node) (roots : List GoString) (list : List GoString)
    (h : ∀ r ∈ roots, ∃ node, entryAt fs r = some node ∧ node.healthy = true) :
    ∃ l, collectLoop fs roots list = .ok l := by
  induction roots generalizing list with
  | nil => exact ⟨list, rfl⟩
  | cons root rest ih =>
    obtain ⟨node, hn, hh⟩ := h root (by simp)
    obtain ⟨⟨l2, e2⟩, hr⟩ := Walk_ok_of_healthy fs root list node hn hh
    obtain ⟨_, he⟩ := Walk_collected fs root list l2 e2 hr
    subst he
    rw [collectLoop, hr]
    simp only [ne_eq, not_true_eq_false, if_false]
    exact ih l2 (fun r hr => h r (List.mem_cons_of_mem _ hr))

theorem lookup_append (node : Node) (a b : List GoString) :
    lookup node (a ++ b) = (lookup node a).bind (fun m => lookup m b) := by
  induction a generalizing node with
  | nil => simp [lookup]
  | cons n rest ih =>
    match node with
    | .file _ => simp [lookup]
    | .noStat => simp [lookup]
    | .dir r es =>
      simp only [List.cons_append, lookup]
      cases findEntry n es with
      | none => simp
      | some child => simp [ih child]

theorem findEntry_healthy (n : GoString) (es : List (GoString × Node)) (child : Node)
    (hh : entriesHealthy es = true) (h : findEntry n es = some child) :
    child.healthy = true := by
  induction es with
  | nil => simp [findEntry] at h
  | cons e rest ih =>
    obtain ⟨m, node⟩ := e
    simp only [entriesHealthy, Bool.and_eq_true] at hh
    simp only [findEntry] at h
    split at h
    · simp at h; subst h; exact hh.1
    · exact ih hh.2 h

mutual
theorem collected_mem_bwd (cs : List GoString) (name : GoString) (node : Node)
    (names : List GoString) (reg : Bool)
    (hcs : ∀ c ∈ cs, validName c = true) (hwf : node.wellFormed = true)
    (hh : node.healthy = true) (hname : HasPrefix name ['.'] = false)
    (hnames : ∀ m ∈ names, validName m = true ∧ HasPrefix m ['.'] = false)
    (hl : lookup node names = some (.file reg))
    (hs : HasSuffix (ToLower (mkPath (cs ++ names))) ['.', 'p', 'd', 'f'] = true) :
    mkPath (cs ++ names) ∈ collected (mkPath cs) name node := by
  match node with
  | .noStat => simp [Node.healthy] at hh
  | .file r =>
    cases names with
    | cons n rest => simp [lookup] at hl
    | nil =>
      simp only [List.append_nil] at hs ⊢
      rw [collected]
      simp [hname, hs]
  | .dir readable entries =>
    simp only [Node.healthy, Bool.and_eq_true] at hh
    simp only [Node.wellFormed] at hwf
    cases names with
    | nil => simp [lookup] at hl
    | cons n rest =>
      simp only [lookup] at hl
      cases hf : findEntry n entries with
      | none => rw [hf] at hl; simp at hl
      | some child =>
        rw [hf] at hl
        rw [collected]
        simp only [hname, hh.1, Bool.false_eq_true, if_false, if_true]
        exact collectedEntries_mem_bwd cs entries n rest child reg hcs hwf hh.2 hf
          hnames hl hs
theorem collectedEntries_mem_bwd (cs : List GoString) (entries : List (GoString × Node))
    (n : GoString) (names : List GoString) (child : Node) (reg : Bool)
    (hcs : ∀ c ∈ cs, validName c = true) (hwf : entriesWellFormed entries = true)
    (hh : entriesHealthy entries = true) (hf : findEntry n entries = some child)
    (hnames : ∀ m ∈ n :: names, validName m = true ∧ HasPrefix m ['.'] = false)
    (hl : lookup child names = some (.file reg))
    (hs : HasSuffix (ToLower (mkPath (cs ++ n :: names))) ['.', 'p', 'd', 'f'] = true) :
    mkPath (cs ++ n :: names) ∈ collectedEntries (mkPath cs) entries := by
  match entries with
  | [] => simp [findEntry] at hf
  | (m, node) :: rest =>
    simp only [entriesWellFormed, Bool.and_eq_true] at hwf
    obtain ⟨⟨⟨hv, _⟩, hnode⟩, hrest⟩ := hwf
    simp only [entriesHealthy, Bool.and_eq_true] at hh
    rw [collectedEntries]
    simp only [findEntry] at hf
    by_cases hmn : m = n
    · subst hmn
      simp at hf
      subst hf
      apply List.mem_append_left
      rw [Join_mkPath cs m hcs hv]
      have hcs2 : ∀ c ∈ cs ++ [m], validName c = true := by
        intro c hc
        rcases List.mem_append.1 hc with hc | hc
        · exact hcs c hc
        · simp at hc; rw [hc]; exact hv
      have e : cs ++ m :: names = (cs ++ [m]) ++ names := by simp
      rw [e] at hs ⊢
      exact collected_mem_bwd (cs ++ [m]) m node names reg hcs2 hnode hh.1
        (hnames m (by simp)).2 (fun x hx => hnames x (List.mem_cons_of_mem _ hx)) hl hs
    · simp only [hmn, if_false] at hf
      apply List.mem_append_right
      exact collectedEntries_mem_bwd cs rest n names child reg hcs hrest hh.2 hf hnames hl hs
end

theorem isSuffixOf_slash (s a b : GoString) (hs : '/' ∉ s) :
    s.isSuffixOf (a ++ '/' :: b) = s.isSuffixOf b := by
  rw [Bool.eq_iff_iff, List.isSuffixOf_iff_suffix, List.isSuffixOf_iff_suffix]
  constructor
  · rintro ⟨t, ht⟩
    rcases List.append_eq_append_iff.1 ht with ⟨a', _, h2⟩ | ⟨c', _, h2⟩
    · exact absurd (by rw [h2]; simp) hs
    · cases c' with
      | nil => exact absurd (by rw [← List.nil_append s, ← h2]; simp) hs
      | cons x c'' =>
        simp only [List.cons_append, List.cons.injEq] at h2
        exact ⟨c'', h2.2.symm⟩
  · intro h
    exact h.trans ((List.suffix_cons _ _).trans (List.suffix_append _ _))

theorem suffix_baseName (cs : List GoString) (hcs : ∀ c ∈ cs, validName c = true) :
    HasSuffix (ToLower (mkPath cs)) ['.', 'p', 'd', 'f'] =
      HasSuffix (ToLower (baseName (mkPath cs))) ['.', 'p', 'd', 'f'] := by
  rcases List.eq_nil_or_concat cs with h | ⟨init, n, h⟩
  · subst h; decide
  · rw [List.concat_eq_append] at h
    subst h
    have hb : baseName (mkPath (init ++ [n])) = n := by
      simp [baseName, pathElems_mkPath _ hcs]
    have hp : ∃ pre, mkPath (init ++ [n]) = pre ++ '/' :: n := by
      cases init with
      | nil => exact ⟨[], rfl⟩
      | cons c rest =>
        refine ⟨'/' :: joinSlash (c :: rest), ?_⟩
        simp only [mkPath, List.cons_append]
        have := joinSlash_append_singleton (c :: rest) (by simp) n
        simp only [List.cons_append] at this
        rw [this]
    obtain ⟨pre, hpre⟩ := hp
    rw [hb, hpre]
    have : ToLower (pre ++ '/' :: n) = ToLower pre ++ '/' :: ToLower n := by
      simp [ToLower]
    rw [this]
    exact isSuffixOf_slash _ _ _ (by decide)

/-! ## `processFile` writes the first image of each hash -/

theorem keepFirst_congr (md5 : List Nat → Nat) (l : List (Nat × Nat × PdfImage))
    (s1 s2 : List Nat) (h : ∀ a, a ∈ s1 ↔ a ∈ s2) :
    keepFirst md5 s1 l = keepFirst md5 s2 l := by
  induction l generalizing s1 s2 with
  | nil => rfl
  | cons x rest ih =>
    simp only [keepFirst, h (md5 x.2.2.data)]
    split
    · exact ih s1 s2 h
    · rw [ih (md5 x.2.2.data :: s1) (md5 x.2.2.data :: s2) (by
        intro a; simp only [List.mem_cons, h a])]

theorem keepFirst_append (md5 : List Nat → Nat) (a b : List (Nat × Nat × PdfImage))
    (seen s2 : List Nat)
    (h : ∀ c, c ∈ s2 ↔ c ∈ seen ∨ ∃ x ∈ a, md5 x.2.2.data = c) :
    keepFirst md5 seen (a ++ b) = keepFirst md5 seen a ++ keepFirst md5 s2 b := by
  induction a generalizing seen with
  | nil =>
    simp only [List.nil_append, keepFirst]
    exact keepFirst_congr md5 b seen s2 (fun c => by simp [h c])
  | cons x rest ih =>
    simp only [List.cons_append, keepFirst]
    split
    · rename_i hx
      apply ih seen
      intro c
      rw [h c]
      constructor
      · rintro (hc | ⟨y, hy, e⟩)
        · exact Or.inl hc
        · rcases List.mem_cons.1 hy with hy | hy
          · subst hy; subst e; exact Or.inl hx
          · exact Or.inr ⟨y, hy, e⟩
      · rintro (hc | ⟨y, hy, e⟩)
        · exact Or.inl hc
        · exact Or.inr ⟨y, List.mem_cons_of_mem _ hy, e⟩
    · rw [List.cons_append]
      congr 1
      apply ih (md5 x.2.2.data :: seen)
      intro c
      rw [h c]
      constructor
      · rintro (hc | ⟨y, hy, e⟩)
        · exact Or.inl (List.mem_cons_of_mem _ hc)
        · rcases List.mem_cons.1 hy with hy | hy
          · subst hy; subst e; exact Or.inl (by simp)
          · exact Or.inr ⟨y, hy, e⟩
      · rintro (hc | ⟨y, hy, e⟩)
        · rcases List.mem_cons.1 hc with hc | hc
          · exact Or.inr ⟨x, by simp, hc.symm⟩
          · exact Or.inl hc
        · exact Or.inr ⟨y, List.mem_cons_of_mem _ hy, e⟩

theorem imageLoop_spec (md5 : List Nat → Nat) (dir : GoString) (n : Nat)
    (images : List PdfImage) :
    ∀ (i : Nat) (hs : List Nat) (w : List Png) (hs2 : List Nat) (w2 : List Png),
      imageLoop md5 dir n i images hs w = .ok (hs2, w2) →
      w2 = w ++ (keepFirst md5 hs (numbered n i images)).map (pngOf dir) ∧
        ∀ c, c ∈ hs2 ↔ c ∈ hs ∨ ∃ x ∈ numbered n i images, md5 x.2.2.data = c := by
  induction images with
  | nil =>
    intro i hs w hs2 w2 h
    simp [imageLoop] at h
    simp [numbered, keepFirst, h.1.symm, h.2.symm]
  | cons one rest ih =>
    intro i hs w hs2 w2 h
    simp only [imageLoop] at h
    simp only [numbered, keepFirst]
    by_cases hin : md5 one.data ∈ hs
    · simp only [hin, if_true] at h ⊢
      obtain ⟨e1, e2⟩ := ih (i + 1) hs w hs2 w2 h
      refine ⟨e1, ?_⟩
      intro c
      rw [e2 c]
      constructor
      · rintro (hc | ⟨y, hy, e⟩)
        · exact Or.inl hc
        · exact Or.inr ⟨y, List.mem_cons_of_mem _ hy, e⟩
      · rintro (hc | ⟨y, hy, e⟩)
        · exact Or.inl hc
        · rcases List.mem_cons.1 hy with hy | hy
          · subst hy; subst e; exact Or.inl hin
          · exact Or.inr ⟨y, hy, e⟩
    · simp only [hin, if_false] at h ⊢
      cases hd : one.decodes with
      | false => simp [hd] at h
      | true =>
        cases hst : one.stores with
        | false => simp [hd, hst] at h
        | true =>
          simp only [hd, hst, Bool.not_true, Bool.false_eq_true, if_false] at h
          obtain ⟨e1, e2⟩ := ih (i + 1) _ _ hs2 w2 h
          refine ⟨?_, ?_⟩
          · rw [e1]; simp [pngOf]
          · intro c
            rw [e2 c]
            constructor
            · rintro (hc | ⟨y, hy, e⟩)
              · rcases List.mem_cons.1 hc with hc | hc
                · exact Or.inr ⟨_, List.mem_cons_self _ _, hc.symm⟩
                · exact Or.inl hc
              · exact Or.inr ⟨y, List.mem_cons_of_mem _ hy, e⟩
            · rintro (hc | ⟨y, hy, e⟩)
              · exact Or.inl (List.mem_cons_of_mem _ hc)
              · rcases List.mem_cons.1 hy with hy | hy
                · subst hy; subst e; exact Or.inl (by simp)
                · exact Or.inr ⟨y, hy, e⟩

theorem pageLoop_spec (md5 : List Nat → Nat) (path : GoString)
    (pages : List (List PdfImage)) :
    ∀ (n : Nat) (hs : List Nat) (w w2 : List Png),
      pageLoop md5 path n (pages.map some) hs w = .ok w2 →
      w2 = w ++ (keepFirst md5 hs (allImages n pages)).map
        (pngOf (path.take (path.length - 4))) := by
  induction pages with
  | nil =>
    intro n hs w w2 h
    simp [pageLoop] at h
    simp [allImages, keepFirst, h]
  | cons images rest ih =>
    intro n hs w w2 h
    simp only [List.map_cons, pageLoop] at h
    cases hsl : sliceDir path with
    | none => rw [hsl] at h; simp at h
    | some dir =>
      rw [hsl] at h
      have hdir : dir = path.take (path.length - 4) := by
        unfold sliceDir at hsl
        split at hsl
        · exact (Option.some.inj hsl).symm
        · simp at hsl
      simp only at h
      cases hl : imageLoop md5 dir n 0 images hs w with
      | error e => rw [hl] at h; simp at h
      | ok r =>
        obtain ⟨hs1, w1⟩ := r
        rw [hl] at h
        simp only at h
        obtain ⟨e1, e2⟩ := imageLoop_spec md5 dir n images 0 hs w hs1 w1 hl
        rw [ih (n + 1) hs1 w1 w2 h, e1, allImages,
          keepFirst_append md5 _ _ hs hs1 e2, hdir]
        simp

theorem keepFirst_sublist (md5 : List Nat → Nat) (l : List (Nat × Nat × PdfImage))
    (seen : List Nat) : (keepFirst md5 seen l).Sublist l := by
  induction l generalizing seen with
  | nil => simp [keepFirst]
  | cons x rest ih =>
    simp only [keepFirst]
    split
    · exact (ih seen).trans (List.sublist_cons_self _ _)
    · exact (ih _).cons₂ x

theorem keepFirst_mem (md5 : List Nat → Nat) (pre post : List (Nat × Nat × PdfImage))
    (x : Nat × Nat × PdfImage) (seen : List Nat) (hnd : (pre ++ x :: post).Nodup) :
    x ∈ keepFirst md5 seen (pre ++ x :: post) ↔
      md5 x.2.2.data ∉ seen ∧ ∀ y ∈ pre, md5 y.2.2.data ≠ md5 x.2.2.data := by
  induction pre generalizing seen with
  | nil =>
    simp only [List.nil_append, keepFirst, List.not_mem_nil, false_implies, implies_true,
      and_true]
    have hx : x ∉ post := (List.nodup_cons.1 hnd).1
    split
    · rename_i hin
      constructor
      · intro h; exact absurd ((keepFirst_sublist md5 post seen).subset h) hx
      · intro h; exact absurd hin h
    · rename_i hin
      simp [hin]
  | cons y rest ih =>
    simp only [List.cons_append] at hnd ⊢
    have hnd2 := (List.nodup_cons.1 hnd).2
    have hxy : x ≠ y := by
      intro e
      have := (List.nodup_cons.1 hnd).1
      exact this (by rw [← e]; simp)
    simp only [keepFirst]
    split
    · rename_i hin
      rw [ih seen hnd2]
      constructor
      · rintro ⟨h1, h2⟩
        refine ⟨h1, ?_⟩
        intro z hz
        rcases List.mem_cons.1 hz with hz | hz
        · subst hz; intro e; exact h1 (e ▸ hin)
        · exact h2 z hz
      · rintro ⟨h1, h2⟩
        exact ⟨h1, fun z hz => h2 z (List.mem_cons_of_mem _ hz)⟩
    · rename_i hin
      rw [List.mem_cons, ih _ hnd2]
      constructor
      · rintro (h | ⟨h1, h2⟩)
        · exact absurd h hxy
        · simp only [List.mem_cons, not_or] at h1
          refine ⟨h1.2, ?_⟩
          intro z hz
          rcases List.mem_cons.1 hz with hz | hz
          · subst hz; exact fun e => h1.1 e.symm
          · exact h2 z hz
      · rintro ⟨h1, h2⟩
        right
        refine ⟨?_, fun z hz => h2 z (List.mem_cons_of_mem _ hz)⟩
        simp only [List.mem_cons, not_or]
        exact ⟨fun e => h2 y (by simp) e.symm, h1⟩

theorem keepFirst_length (md5 : List Nat → Nat) (l : List (Nat × Nat × PdfImage))
    (seen : List Nat) :
    (keepFirst md5 seen l).length =
      ((l.map (fun x => md5 x.2.2.data)).toFinset \ seen.toFinset).card := by
  induction l generalizing seen with
  | nil => simp [keepFirst]
  | cons x rest ih =>
    simp only [keepFirst, List.map_cons, List.toFinset_cons]
    split
    · rename_i hin
      rw [ih seen]
      congr 1
      ext a
      simp only [Finset.mem_sdiff, Finset.mem_insert, List.mem_toFinset]
      constructor
      · rintro ⟨h1, h2⟩; exact ⟨Or.inr h1, h2⟩
      · rintro ⟨h1 | h1, h2⟩
        · subst h1; exact absurd hin h2
        · exact ⟨h1, h2⟩
    · rename_i hin
      rw [List.length_cons, ih]
      have : (insert (md5 x.2.2.data) (rest.map (fun x => md5 x.2.2.data)).toFinset) \
          seen.toFinset =
          insert (md5 x.2.2.data) ((rest.map (fun x => md5 x.2.2.data)).toFinset \
            (md5 x.2.2.data :: seen).toFinset) := by
        ext a
        simp only [Finset.mem_sdiff, Finset.mem_insert, List.mem_toFinset, List.mem_cons,
          not_or]
        constructor
        · rintro ⟨h1 | h1, h2⟩
          · exact Or.inl h1
          · by_cases e : a = md5 x.2.2.data
            · exact Or.inl e
            · exact Or.inr ⟨h1, e, h2⟩
        · rintro (h1 | ⟨h1, _, h3⟩)
          · subst h1; exact ⟨Or.inl rfl, hin⟩
          · exact ⟨Or.inr h1, h3⟩
      rw [this, Finset.card_insert_of_not_mem]
      simp

theorem numbered_mem (n : Nat) (images : List PdfImage) :
    ∀ (i : Nat) (x : Nat × Nat × PdfImage), x ∈ numbered n i images →
      x.1 = n ∧ i < x.2.1 ∧ images.get? (x.2.1 - i - 1) = some x.2.2 := by
  induction images with
  | nil => intro i x h; simp [numbered] at h
  | cons one rest ih =>
    intro i x h
    simp only [numbered, List.mem_cons] at h
    rcases h with h | h
    · subst h; simp
    · obtain ⟨h1, h2, h3⟩ := ih (i + 1) x h
      refine ⟨h1, by omega, ?_⟩
      have : x.2.1 - i - 1 = (x.2.1 - (i + 1) - 1) + 1 := by omega
      rw [this, List.get?_cons_succ]
      exact h3

theorem numbered_nodup (n : Nat) (images : List PdfImage) :
    ∀ i : Nat, ((numbered n i images).map (fun x => (x.1, x.2.1))).Nodup := by
  induction images with
  | nil => intro i; simp [numbered]
  | cons one rest ih =>
    intro i
    simp only [numbered, List.map_cons, List.nodup_cons]
    refine ⟨?_, ih (i + 1)⟩
    intro hmem
    obtain ⟨y, hy, e⟩ := List.mem_map.1 hmem
    have := (numbered_mem n rest (i + 1) y hy).2.1
    have e2 : y.2.1 = i + 1 := by simpa using congrArg Prod.snd e
    omega

theorem allImages_mem (pages : List (List PdfImage)) :
    ∀ (n : Nat) (x : Nat × Nat × PdfImage), x ∈ allImages n pages →
      n ≤ x.1 ∧ 1 ≤ x.2.1 ∧ ∃ images, pages.get? (x.1 - n) = some images ∧
        images.get? (x.2.1 - 1) = some x.2.2 := by
  induction pages with
  | nil => intro n x h; simp [allImages] at h
  | cons images rest ih =>
    intro n x h
    simp only [allImages, List.mem_append] at h
    rcases h with h | h
    · obtain ⟨h1, h2, h3⟩ := numbered_mem n images 0 x h
      refine ⟨by omega, by omega, images, by simp [h1], ?_⟩
      simpa using h3
    · obtain ⟨h1, h2, imgs, h3, h4⟩ := ih (n + 1) x h
      refine ⟨by omega, h2, imgs, ?_, h4⟩
      have : x.1 - n = (x.1 - (n + 1)) + 1 := by omega
      rw [this, List.get?_cons_succ]
      exact h3

theorem allImages_nodup (pages : List (List PdfImage)) :
    ∀ n : Nat, ((allImages n pages).map (fun x => (x.1, x.2.1))).Nodup := by
  induction pages with
  | nil => intro n; simp [allImages]
  | cons images rest ih =>
    intro n
    simp only [allImages, List.map_append]
    rw [List.nodup_append]
    refine ⟨numbered_nodup n images 0, ih (n + 1), ?_⟩
    intro p hp1 hp2
    obtain ⟨y, hy, e1⟩ := List.mem_map.1 hp1
    obtain ⟨z, hz, e2⟩ := List.mem_map.1 hp2
    have h1 := (numbered_mem n images 0 y hy).1
    have h2 := (allImages_mem rest (n + 1) z hz).1
    have e3 : y.1 = z.1 := by
      have := congrArg Prod.fst (e1.trans e2.symm)
      simpa using this
    omega

theorem realpathCanonical_canonical (p q : GoString) (h : realpathCanonical p = some q) :
    isCanonical q = true := by
  unfold realpathCanonical at h
  split at h
  · rename_i hc
    have : p = q := by simpa using h
    rw [← this]; exact hc
  · simp at h

/-! ## The failures of `extractImages` -/

theorem collectFiles_error (fs : Node) (order : List GoString → List GoString)
    (set : List GoString) (e : Error) (h : collectFiles fs order set = .error e) :
    e = .nilInfo := by
  unfold collectFiles at h
  cases hc : collectLoop fs (order set) [] with
  | error e2 =>
    rw [hc] at h
    have := collectLoop_error fs _ _ e2 hc
    simp at h; rw [← h]; exact this
  | ok l => rw [hc] at h; simp at h

theorem imageLoop_error (md5 : List Nat → Nat) (dir : GoString) (n : Nat)
    (images : List PdfImage) :
    ∀ (i : Nat) (hs : List Nat) (w : List Png) (e : Error),
      imageLoop md5 dir n i images hs w = .error e → e = .process := by
  induction images with
  | nil => intro i hs w e h; simp [imageLoop] at h
  | cons one rest ih =>
    intro i hs w e h
    simp only [imageLoop] at h
    split at h
    · exact ih _ _ _ e h
    · split at h
      · simp at h; exact h.symm
      · split at h
        · simp at h; exact h.symm
        · exact ih _ _ _ e h

theorem pageLoop_error (md5 : List Nat → Nat) (path : GoString) (pages : List PdfPage) :
    ∀ (n : Nat) (hs : List Nat) (w : List Png) (e : Error),
      pageLoop md5 path n pages hs w = .error e →
      e = .process ∨ (e = .sliceBounds ∧ sliceDir path = none) := by
  induction pages with
  | nil => intro n hs w e h; simp [pageLoop] at h
  | cons page rest ih =>
    intro n hs w e h
    simp only [pageLoop] at h
    cases page with
    | none => simp at h; exact Or.inl h.symm
    | some images =>
      simp only at h
      cases hsl : sliceDir path with
      | none => rw [hsl] at h; simp at h; exact Or.inr ⟨h.symm, rfl⟩
      | some dir =>
        rw [hsl] at h
        simp only at h
        cases hl : imageLoop md5 dir n 0 images hs w with
        | error e2 =>
          rw [hl] at h
          have := imageLoop_error md5 dir n images 0 hs w e2 hl
          simp at h; rw [← h]; exact Or.inl this
        | ok r =>
          rw [hl] at h
          have := ih _ _ _ e h
          rw [hsl] at this
          exact this

theorem processAll_error (md5 : List Nat → Nat) (docs : GoString → PdfDoc)
    (list : List GoString) (e : Error) (h : processAll md5 docs list = .error e) :
    e = .process ∨ (e = .sliceBounds ∧ ∃ path ∈ list, sliceDir path = none) := by
  induction list with
  | nil => simp [processAll] at h
  | cons path rest ih =>
    simp only [processAll] at h
    cases hp : processFile md5 path (docs path) with
    | error e2 =>
      rw [hp] at h
      have he : e2 = e := by simpa using h
      subst he
      unfold processFile at hp
      cases hd : docs path with
      | none => rw [hd] at hp; simp at hp; exact Or.inl hp.symm
      | some pages =>
        rw [hd] at hp
        rcases pageLoop_error md5 path pages 1 [] [] e2 hp with h1 | ⟨h1, h2⟩
        · exact Or.inl h1
        · exact Or.inr ⟨h1, path, by simp, h2⟩
    | ok pngs =>
      rw [hp] at h
      simp only at h
      cases hr : processAll md5 docs rest with
      | error e2 =>
        rw [hr] at h
        have he : e2 = e := by simpa using h
        subst he
        rcases ih hr with h1 | ⟨h1, p, hp1, hp2⟩
        · exact Or.inl h1
        · exact Or.inr ⟨h1, p, List.mem_cons_of_mem _ hp1, hp2⟩
      | ok more => rw [hr] at h; simp at h

theorem rootLoop_error (actual : GoString) (visit set : List GoString) (e : Error)
    (h : rootLoop actual visit set = .error e) : e = .rel := by
  induction visit generalizing set with
  | nil => simp [rootLoop] at h
  | cons one rest ih =>
    simp only [rootLoop] at h
    split at h
    · simp at h; exact h.symm
    · split at h
      · simp at h; exact h.symm
      · split at h
        · split at h
          · exact ih _ h
          · simp at h
        · exact ih _ h

theorem rootPathsFrom_error (realpath : GoString → Option GoString)
    (order : Nat → List GoString → List GoString) (paths : List GoString) (n : Nat)
    (set : List GoString) (e : Error) (h : rootPathsFrom realpath order n paths set = .error e) :
    e = .resolve ∨ e = .rel := by
  induction paths generalizing n set with
  | nil => simp [rootPathsFrom] at h
  | cons path rest ih =>
    simp only [rootPathsFrom] at h
    split at h
    · simp at h; exact Or.inl h.symm
    · split at h
      · exact ih _ _ h
      · split at h
        · rename_i e2 hl
          have := rootLoop_error _ _ _ e2 hl
          simp at h; rw [← h]; exact Or.inr this
        · exact ih _ _ h

/-- The slice `path[:len(path)-4]` of `processFile` is in range in every run of
`extractImages`: the program never stops with a slice out of range. -/
theorem extractImages_slice_in_range (getwd : Option GoString)
    (realpath : GoString → Option GoString) (order : Nat → List GoString → List GoString)
    (fs : Node) (order2 : List GoString → List GoString) (md5 : List Nat → Nat)
    (docs : GoString → PdfDoc) (paths : List GoString) :
    extractImages getwd realpath order fs order2 md5 docs paths ≠ .error .sliceBounds := by
  intro h
  unfold extractImages at h
  simp only at h
  split at h
  · rename_i e he
    have : e = .getwd := by
      split at he
      · split at he
        · simpa using he.symm
        · simp at he
      · simp at he
    rw [this] at h; simp at h
  · rename_i paths2 _
    split at h
    · rename_i e he
      rcases rootPathsFrom_error _ _ _ _ _ e he with h1 | h1 <;> rw [h1] at h <;> simp at h
    · rename_i set _
      split at h
      · rename_i e he
        have := collectFiles_error _ _ _ e he
        rw [this] at h; simp at h
      · rename_i list hl
        rcases processAll_error md5 docs list _ h with h1 | ⟨_, p, hp1, hp2⟩
        · simp at h1
        · obtain ⟨root, _, hr⟩ := (collectFiles_mem fs order2 set list hl p).1 hp1
          have h4 := (suffix_split p _ (rootCollected_suffix fs root p hr)).1
          have h4 : 4 ≤ p.length := h4
          simp [sliceDir, h4] at hp2

/-! ## A path and a path found redundant next to it -/

theorem eq_singleton_of_nodup (S : List GoString) (a : GoString) (hnd : S.Nodup)
    (h : ∀ x, x ∈ S ↔ x = a) : S = [a] := by
  match S with
  | [] => exact absurd ((h a).2 rfl) (by simp)
  | [x] => rw [(h x).1 (by simp)]
  | x :: y :: t =>
    have hx := (h x).1 (by simp)
    have hy := (h y).1 (by simp)
    rw [List.nodup_cons] at hnd
    exact absurd (by rw [hx, hy]; simp) hnd.1

/-- When the test of `rootPaths` finds `b` redundant next to `a` (on canonical paths:
`b` lies below `a` and its first element below `a` does not begin with two dots), the
two paths reduce to `a` alone, in either order of the input. -/
theorem rootPaths_pair (realpath : GoString → Option GoString)
    (order : Nat → List GoString → List GoString) (hord : ∀ n l, (order n l).Perm l)
    (pa pb a b : GoString) (ha : realpath pa = some a) (hb : realpath pb = some b)
    (hca : isCanonical a = true) (hcb : isCanonical b = true) (hu : under b a = true) :
    rootPaths realpath order [pa, pb] = .ok [a] ∧
      rootPaths realpath order [pb, pa] = .ok [a] := by
  have hne : b ≠ a := by
    intro e; rw [e, under_irrefl] at hu; exact absurd hu (by simp)
  have key : ∀ paths : List GoString, (∀ p ∈ paths, p = pa ∨ p = pb) → pa ∈ paths →
      pb ∈ paths → rootPaths realpath order paths = .ok [a] := by
    intro paths hp hpa hpb
    have hreal : ∀ p ∈ paths, ∃ q, realpath p = some q ∧ isCanonical q = true := by
      intro p hpm
      rcases hp p hpm with e | e
      · exact ⟨a, by rw [e, ha], hca⟩
      · exact ⟨b, by rw [e, hb], hcb⟩
    obtain ⟨S, e, hnd, _, hmem⟩ := rootPaths_spec realpath order hord paths hreal
    have hain : a ∈ paths.filterMap realpath := List.mem_filterMap.2 ⟨pa, hpa, ha⟩
    have hbin : b ∈ paths.filterMap realpath := List.mem_filterMap.2 ⟨pb, hpb, hb⟩
    have hall : ∀ y ∈ paths.filterMap realpath, y = a ∨ y = b := by
      intro y hy
      obtain ⟨p, hpm, hpy⟩ := List.mem_filterMap.1 hy
      rcases hp p hpm with e | e
      · left; rw [e, ha] at hpy; exact (Option.some.inj hpy).symm
      · right; rw [e, hb] at hpy; exact (Option.some.inj hpy).symm
    rw [e, eq_singleton_of_nodup S a hnd]
    intro x
    rw [hmem x]
    constructor
    · rintro ⟨hx, hmax⟩
      rcases hall x hx with e | e
      · exact e
      · rw [e] at hmax
        rw [hmax a hain] at hu
        exact absurd hu (by simp)
    · intro hx
      rw [hx]
      refine ⟨hain, ?_⟩
      intro y hy
      rcases hall y hy with e | e
      · rw [e]; exact under_irrefl a
      · rw [e]; exact under_asymm b a hu
  exact ⟨key [pa, pb] (by simp) (by simp) (by simp),
    key [pb, pa] (by intro p hp; simp at hp; tauto) (by simp) (by simp)⟩

theorem descendant_mkPath (cx cy : List GoString) (hx : ∀ c ∈ cx, validName c = true)
    (hy : ∀ c ∈ cy, validName c = true) :
    descendant (mkPath cx) (mkPath cy) = true ↔ ∃ t ts, cx = cy ++ t :: ts := by
  simp only [descendant, Bool.and_eq_true, decide_eq_true_eq, words_mkPath cx hx,
    words_mkPath cy hy, List.isPrefixOf_iff_prefix]
  constructor
  · rintro ⟨hne, ⟨r, hr⟩⟩
    simp only [List.cons_append, List.cons.injEq, true_and] at hr
    cases r with
    | nil => rw [List.append_nil] at hr; exact absurd (by rw [hr]) hne
    | cons t ts => exact ⟨t, ts, hr.symm⟩
  · rintro ⟨t, ts, h⟩
    refine ⟨?_, ⟨t :: ts, by simp [h]⟩⟩
    intro e
    have := mkPath_injective _ _ hx hy e
    rw [this] at h
    have := congrArg List.length h
    simp at this

/-- The test of `rootPaths` against subtree containment, on canonical paths: `x` is found
redundant next to `y` exactly when it lies within the subtree rooted at `y` and its first
element below `y` does not begin with two dots. -/
theorem under_iff_descendant (cx cy : List GoString) (hx : ∀ c ∈ cx, validName c = true)
    (hy : ∀ c ∈ cy, validName c = true) :
    under (mkPath cx) (mkPath cy) = true ↔
      descendant (mkPath cx) (mkPath cy) = true ∧
        ∀ t ts, cx = cy ++ t :: ts → HasPrefix t ['.', '.'] = false := by
  rw [under_mkPath cx cy hx hy, descendant_mkPath cx cy hx hy]
  constructor
  · rintro ⟨t, ts, h, ht⟩
    refine ⟨⟨t, ts, h⟩, ?_⟩
    intro t2 ts2 h2
    have := List.append_cancel_left (h.symm.trans h2)
    rw [← (List.cons.inj this).1]; exact ht
  · rintro ⟨⟨t, ts, h⟩, hall⟩
    exact ⟨t, ts, h, hall t ts h⟩

/-- Sorting by `NaturalLess` without regard to case gives the same sequence for any two
orders of the same list. -/
theorem sortSlice_NaturalLess_perm (l1 l2 : List GoString) (hp : l1.Perm l2) :
    sortSlice (fun a b => NaturalLess a b true) l1 =
      sortSlice (fun a b => NaturalLess a b true) l2 := by
  have hasymm := NaturalLess_asymm
  have hneg : ∀ a b c : GoString, NaturalLess a b true = false → NaturalLess b c true = false →
      NaturalLess a c true = false := fun a b c h1 h2 => NaturalLess_negTrans c b a h2 h1
  apply sorted_perm_unique (fun a b => NaturalLess a b true) hasymm
  · exact (sortSlice_perm _ l1).trans (hp.trans (sortSlice_perm _ l2).symm)
  · exact sortSlice_sorted _ hasymm hneg l1
  · exact sortSlice_sorted _ hasymm hneg l2
  · intro a _ b _ h1 h2
    exact NaturalLess_total a b h1 h2

/-! # The claims -/

/-- C1, at the failing input: `/a/..b` lies within the subtree rooted at `/a`, and
`rootPaths` returns both paths, in either order of the input. -/
theorem rootPaths_keeps_dotdot_child :
    descendant "/a/..b".toList "/a".toList = true ∧
      Rel "/a".toList "/a/..b".toList = some "..b".toList ∧
      Rel "/a/..b".toList "/a".toList = some "..".toList ∧
      rootPaths realpathCanonical (fun _ l => l) ["/a".toList, "/a/..b".toList] =
        .ok ["/a".toList, "/a/..b".toList] ∧
      rootPaths realpathCanonical (fun _ l => l) ["/a/..b".toList, "/a".toList] =
        .ok ["/a/..b".toList, "/a".toList] := by
  decide

/-- C2, at the failing input: the set that `rootPaths` returns for `/a`, `/a/..b/c` and
`/a/..b` has the member `/a/..b` within the subtree of its member `/a`, and so has the
accumulating set after the second and after the third path. -/
theorem rootPaths_set_overlaps :
    rootPaths realpathCanonical (fun _ l => l) ["/a".toList, "/a/..b/c".toList] =
        .ok ["/a".toList, "/a/..b/c".toList] ∧
      descendant "/a/..b/c".toList "/a".toList = true ∧
      rootPaths realpathCanonical (fun _ l => l)
          ["/a".toList, "/a/..b/c".toList, "/a/..b".toList] =
        .ok ["/a".toList, "/a/..b".toList] ∧
      descendant "/a/..b".toList "/a".toList = true := by
  decide

/-- C3: for input paths that all resolve, `rootPaths` succeeds on the list and on each
permutation of it, under any iteration order of the map, and returns the same set (the
same keys, each once). -/
theorem rootPaths_order_independent (realpath : GoString → Option GoString)
    (hcanon : ∀ p q, realpath p = some q → isCanonical q = true)
    (order1 order2 : Nat → List GoString → List GoString)
    (hord1 : ∀ n l, (order1 n l).Perm l) (hord2 : ∀ n l, (order2 n l).Perm l)
    (paths1 paths2 : List GoString) (hperm : paths1.Perm paths2)
    (hres : ∀ p ∈ paths1, (realpath p).isSome = true) :
    ∃ set1 set2, rootPaths realpath order1 paths1 = .ok set1 ∧
      rootPaths realpath order2 paths2 = .ok set2 ∧
      set1.Nodup ∧ set2.Nodup ∧ (∀ x, x ∈ set1 ↔ x ∈ set2) ∧ set1.Perm set2 := by
  have hreal1 : ∀ p ∈ paths1, ∃ q, realpath p = some q ∧ isCanonical q = true := by
    intro p hp
    obtain ⟨q, hq⟩ := Option.isSome_iff_exists.1 (hres p hp)
    exact ⟨q, hq, hcanon p q hq⟩
  have hreal2 : ∀ p ∈ paths2, ∃ q, realpath p = some q ∧ isCanonical q = true :=
    fun p hp => hreal1 p (hperm.mem_iff.2 hp)
  obtain ⟨S1, e1, n1, _, m1⟩ := rootPaths_spec realpath order1 hord1 paths1 hreal1
  obtain ⟨S2, e2, n2, _, m2⟩ := rootPaths_spec realpath order2 hord2 paths2 hreal2
  have hfm : ∀ x, x ∈ paths1.filterMap realpath ↔ x ∈ paths2.filterMap realpath :=
    fun x => (hperm.filterMap realpath).mem_iff
  have hmem : ∀ x, x ∈ S1 ↔ x ∈ S2 := by
    intro x
    rw [m1 x, m2 x, hfm x]
    constructor
    · rintro ⟨h1, h2⟩; exact ⟨h1, fun y hy => h2 y ((hfm y).2 hy)⟩
    · rintro ⟨h1, h2⟩; exact ⟨h1, fun y hy => h2 y ((hfm y).1 hy)⟩
  exact ⟨S1, S2, e1, e2, n1, n2, hmem, (List.perm_ext_iff_of_nodup n1 n2).2 hmem⟩

/-- Witness for C3: three nested paths and a separate one, in two orders of the input and
with the map visited in two orders. -/
theorem rootPaths_order_independent_witness :
    rootPaths realpathCanonical (fun _ l => l)
        ["/a/b/c".toList, "/d".toList, "/a/b".toList, "/a".toList] =
      .ok ["/d".toList, "/a".toList] ∧
    rootPaths realpathCanonical (fun _ l => l.reverse)
        ["/a".toList, "/a/b".toList, "/d".toList, "/a/b/c".toList] =
      .ok ["/a".toList, "/d".toList] ∧
    ∃ set1 set2,
      rootPaths realpathCanonical (fun _ l => l)
        ["/a/b/c".toList, "/d".toList, "/a/b".toList, "/a".toList] = .ok set1 ∧
      rootPaths realpathCanonical (fun _ l => l.reverse)
        ["/a".toList, "/a/b".toList, "/d".toList, "/a/b/c".toList] = .ok set2 ∧
      set1.Nodup ∧ set2.Nodup ∧ (∀ x, x ∈ set1 ↔ x ∈ set2) ∧ set1.Perm set2 :=
  ⟨by decide, by decide,
    rootPaths_order_independent realpathCanonical realpathCanonical_canonical
      (fun _ l => l) (fun _ l => l.reverse) (fun _ l => List.Perm.refl l)
      (fun _ l => List.reverse_perm l)
      ["/a/b/c".toList, "/d".toList, "/a/b".toList, "/a".toList]
      ["/a".toList, "/a/b".toList, "/d".toList, "/a/b/c".toList]
      (by decide) (by decide)⟩

/-- C5: the list that `collectFiles` returns is a permutation of the paths appended during
the traversal, and it is in natural order without regard to letter case: for positions
`i < j` the path at `j` is not `NaturalLess` than the path at `i`. -/
theorem collectFiles_sorted_perm (fs : Node) (order : List GoString → List GoString)
    (set L : List GoString) (h : collectFiles fs order set = .ok L) :
    ∃ appended, collectLoop fs (order set) [] = .ok appended ∧ L.Perm appended ∧
      ∀ i j : Fin L.length, i < j → NaturalLess (L.get j) (L.get i) true = false := by
  obtain ⟨h1, h2⟩ := collectFiles_ok fs order set L h
  refine ⟨_, h1, ?_, ?_⟩
  · rw [h2]; exact sortSlice_perm _ _
  · have hs := sortSlice_sorted (fun a b => NaturalLess a b true) NaturalLess_asymm
      (fun a b c h1 h2 => NaturalLess_negTrans c b a h2 h1)
      ((order set).flatMap (rootCollected fs))
    rw [← h2] at hs
    intro i j hij
    exact List.pairwise_iff_get.1 hs i j hij

/-- Witness for C5: the directory with `f1.pdf`, `f2.pdf` and `f10.pdf` of the
specification's example. -/
theorem collectFiles_sorted_perm_witness :
    collectFiles exampleFs id ["/r".toList] =
        .ok ["/r/DOC.PDF".toList, "/r/f1.pdf".toList, "/r/f2.pdf".toList, "/r/f10.pdf".toList] ∧
      ∃ appended, collectLoop exampleFs (id ["/r".toList]) [] = .ok appended ∧
        ["/r/DOC.PDF".toList, "/r/f1.pdf".toList, "/r/f2.pdf".toList,
          "/r/f10.pdf".toList].Perm appended ∧
        ∀ i j : Fin ["/r/DOC.PDF".toList, "/r/f1.pdf".toList, "/r/f2.pdf".toList,
            "/r/f10.pdf".toList].length, i < j →
          NaturalLess (["/r/DOC.PDF".toList, "/r/f1.pdf".toList, "/r/f2.pdf".toList,
            "/r/f10.pdf".toList].get j) (["/r/DOC.PDF".toList, "/r/f1.pdf".toList,
            "/r/f2.pdf".toList, "/r/f10.pdf".toList].get i) true = false :=
  ⟨by decide, collectFiles_sorted_perm exampleFs id ["/r".toList] _ (by decide)⟩

/-- C7, at the failing input: the directory `/r` cannot be read, the walk function is told
so and ignores it, and `collectFiles` returns an empty list and no error. -/
theorem collectFiles_unreadable_dir_ignored :
    collectFiles unreadableFs id ["/r".toList] = .ok [] := by decide

/-- C8: two runs of `collectFiles` whose working lists before sorting are permutations of
each other (they differ only in the order in which directory entries and the members of
the root set are traversed) return the same sequence. -/
theorem collectFiles_order_independent (fs1 fs2 : Node)
    (order1 order2 : List GoString → List GoString) (set1 set2 w1 w2 L1 L2 : List GoString)
    (hw1 : collectLoop fs1 (order1 set1) [] = .ok w1)
    (hw2 : collectLoop fs2 (order2 set2) [] = .ok w2)
    (hperm : w1.Perm w2)
    (h1 : collectFiles fs1 order1 set1 = .ok L1)
    (h2 : collectFiles fs2 order2 set2 = .ok L2) :
    L1 = L2 := by
  obtain ⟨e1, s1⟩ := collectFiles_ok fs1 order1 set1 L1 h1
  obtain ⟨e2, s2⟩ := collectFiles_ok fs2 order2 set2 L2 h2
  rw [hw1] at e1
  rw [hw2] at e2
  rw [← Except.ok.inj e1] at s1
  rw [← Except.ok.inj e2] at s2
  rw [s1, s2]
  exact sortSlice_NaturalLess_perm w1 w2 hperm

/-- Witness for C8: two directories whose names differ in letter case only, each with a
file `x.pdf`, as roots visited in either order. -/
theorem collectFiles_order_independent_witness :
    collectLoop caseFs (id ["/r".toList, "/R".toList]) [] =
        .ok ["/r/x.pdf".toList, "/R/x.pdf".toList] ∧
      collectLoop caseFs (List.reverse ["/r".toList, "/R".toList]) [] =
        .ok ["/R/x.pdf".toList, "/r/x.pdf".toList] ∧
      collectFiles caseFs id ["/r".toList, "/R".toList] =
        .ok ["/R/x.pdf".toList, "/r/x.pdf".toList] ∧
      collectFiles caseFs List.reverse ["/r".toList, "/R".toList] =
        .ok ["/R/x.pdf".toList, "/r/x.pdf".toList] ∧
      ["/R/x.pdf".toList, "/r/x.pdf".toList] = ["/R/x.pdf".toList, "/r/x.pdf".toList] :=
  ⟨by decide, by decide, by decide, by decide,
    collectFiles_order_independent caseFs caseFs id List.reverse
      ["/r".toList, "/R".toList] ["/r".toList, "/R".toList]
      ["/r/x.pdf".toList, "/R/x.pdf".toList] ["/R/x.pdf".toList, "/r/x.pdf".toList]
      ["/R/x.pdf".toList, "/r/x.pdf".toList] ["/R/x.pdf".toList, "/r/x.pdf".toList]
      (by decide) (by decide) (List.Perm.swap _ _ _) (by decide) (by decide)⟩

/-- C9: every path in a list returned by `collectFiles` has at least four characters, of
which the last four are `.pdf` up to letter case; so the slice `path[:len(path)-4]` of
`processFile` is in range and is the path without that extension. -/
theorem collectFiles_paths_end_in_pdf (fs : Node) (order : List GoString → List GoString)
    (set L : List GoString) (h : collectFiles fs order set = .ok L) :
    ∀ path ∈ L, 4 ≤ path.length ∧
      ToLower (path.drop (path.length - 4)) = ['.', 'p', 'd', 'f'] ∧
      ∃ dir, sliceDir path = some dir ∧ path = dir ++ path.drop (path.length - 4) := by
  intro path hp
  obtain ⟨root, _, hr⟩ := (collectFiles_mem fs order set L h path).1 hp
  obtain ⟨h1, h2⟩ := suffix_split path _ (rootCollected_suffix fs root path hr)
  have h1 : 4 ≤ path.length := h1
  refine ⟨h1, h2, path.take (path.length - 4), ?_, ?_⟩
  · simp [sliceDir, h1]
  · exact (List.take_append_drop _ _).symm

/-- Witness for C9: the example directory, whose file `DOC.PDF` gives the directory
`DOC`. -/
theorem collectFiles_paths_end_in_pdf_witness :
    sliceDir "/r/DOC.PDF".toList = some "/r/DOC".toList ∧
      ∀ path ∈ ["/r/DOC.PDF".toList, "/r/f1.pdf".toList, "/r/f2.pdf".toList,
          "/r/f10.pdf".toList],
        4 ≤ path.length ∧
        ToLower (path.drop (path.length - 4)) = ['.', 'p', 'd', 'f'] ∧
        ∃ dir, sliceDir path = some dir ∧ path = dir ++ path.drop (path.length - 4) :=
  ⟨by decide, collectFiles_paths_end_in_pdf exampleFs id ["/r".toList] _ (by decide)⟩

/-- C6: when `rootPaths` and `collectFiles` succeed, the list
`collectFiles(rootPaths(paths))` holds no path more than once, also when some input paths
lie inside others. -/
theorem collectFiles_rootPaths_nodup (realpath : GoString → Option GoString)
    (hcanon : ∀ p q, realpath p = some q → isCanonical q = true)
    (order : Nat → List GoString → List GoString) (hord : ∀ n l, (order n l).Perm l)
    (fs : Node) (hwf : fs.wellFormed = true)
    (order2 : List GoString → List GoString) (hord2 : ∀ l, (order2 l).Perm l)
    (paths set L : List GoString) (hset : rootPaths realpath order paths = .ok set)
    (hL : collectFiles fs order2 set = .ok L) : L.Nodup := by
  have hres := rootPathsFrom_resolves realpath order paths 0 [] set hset
  have hreal : ∀ p ∈ paths, ∃ q, realpath p = some q ∧ isCanonical q = true := by
    intro p hp
    obtain ⟨q, hq⟩ := hres p hp
    exact ⟨q, hq, hcanon p q hq⟩
  obtain ⟨S, hS, hnd, hcan, hmem⟩ := rootPaths_spec realpath order hord paths hreal
  rw [hset] at hS
  have hSeq : set = S := Except.ok.inj hS
  subst hSeq
  obtain ⟨_, hsort⟩ := collectFiles_ok fs order2 set L hL
  rw [hsort]
  refine (sortSlice_perm _ _).nodup_iff.2 ?_
  rw [List.nodup_flatMap]
  have hm : ∀ x, x ∈ order2 set ↔ x ∈ set := fun x => (hord2 set).mem_iff
  refine ⟨?_, ?_⟩
  · intro r hr
    obtain ⟨cs, vs, rfl⟩ := canonical_exists r (hcan r ((hm r).1 hr))
    exact (rootCollected_spec fs hwf cs vs).1
  · apply List.Nodup.pairwise_of_forall_ne ((hord2 set).nodup_iff.2 hnd)
    intro a ha b hb hab
    have ha' := (hm a).1 ha
    have hb' := (hm b).1 hb
    exact rootCollected_disjoint fs hwf a b (hcan a ha') (hcan b hb') hab
      (((hmem a).1 ha').2 b ((hmem b).1 hb').1) (((hmem b).1 hb').2 a ((hmem a).1 ha').1)

/-- Witness for C6: the roots `/a` and `/a/b`, of which `rootPaths` keeps `/a`; the file
below `/a/b` is listed once. -/
theorem collectFiles_rootPaths_nodup_witness :
    rootPaths realpathCanonical (fun _ l => l) ["/a".toList, "/a/b".toList] =
        .ok ["/a".toList] ∧
      collectFiles nestedFs id ["/a".toList] =
        .ok ["/a/b/y.pdf".toList, "/a/x.pdf".toList] ∧
      ["/a/b/y.pdf".toList, "/a/x.pdf".toList].Nodup :=
  ⟨by decide, by decide,
    collectFiles_rootPaths_nodup realpathCanonical
      realpathCanonical_canonical
      (fun _ l => l) (fun _ l => List.Perm.refl l) nestedFs (by decide) id
      (fun l => List.Perm.refl l) ["/a".toList, "/a/b".toList] ["/a".toList]
      ["/a/b/y.pdf".toList, "/a/x.pdf".toList] (by decide) (by decide)⟩

/-- C4 as stated fails: a symbolic link named `l.pdf` is not a regular file, and
`collectFiles` lists it. -/
theorem collectFiles_lists_symlink :
    collectFiles linkFs id ["/r".toList] = .ok ["/r/l.pdf".toList] ∧
      entryAt linkFs "/r/l.pdf".toList = some (.file false) :=
  ⟨by decide, rfl⟩

/-- C4, amended: in a file system where the walk of each root meets no failure, a path is
in the list returned by `collectFiles` exactly when it names an entry that is not a
directory (a regular file or not), at or beneath some root, whose name ends in `.pdf` up
to letter case, and neither the root's name nor any name from the root down to the entry
begins with a dot. -/
theorem collectFiles_mem_iff (fs : Node) (hwf : fs.wellFormed = true)
    (order : List GoString → List GoString) (set : List GoString)
    (hord : (order set).Perm set) (hcan : ∀ r ∈ set, isCanonical r = true)
    (hhealthy : ∀ r ∈ set, ∃ node, entryAt fs r = some node ∧ node.healthy = true) :
    ∃ L, collectFiles fs order set = .ok L ∧ ∀ p, p ∈ L ↔
      ∃ r ∈ set, ∃ names reg, isCanonical p = true ∧
        pathElems p = pathElems r ++ names ∧
        entryAt fs p = some (.file reg) ∧
        HasSuffix (ToLower (baseName p)) ['.', 'p', 'd', 'f'] = true ∧
        HasPrefix (baseName r) ['.'] = false ∧
        ∀ n ∈ names, HasPrefix n ['.'] = false := by
  have hm : ∀ x, x ∈ order set ↔ x ∈ set := fun x => hord.mem_iff
  obtain ⟨l, hl⟩ := collectLoop_ok_of_healthy fs (order set) []
    (fun r hr => hhealthy r ((hm r).1 hr))
  have hcf : collectFiles fs order set =
      .ok (sortSlice (fun a b => NaturalLess a b true) l) := by
    simp [collectFiles, hl]
  refine ⟨_, hcf, ?_⟩
  intro p
  rw [collectFiles_mem fs order set _ hcf p]
  constructor
  · rintro ⟨r, hr, hp⟩
    have hr' := (hm r).1 hr
    obtain ⟨cs, vs, rfl⟩ := canonical_exists r (hcan r hr')
    obtain ⟨node, hn, _⟩ := hhealthy _ hr'
    have hlk : lookup fs cs = some node := by
      simpa [entryAt, pathElems_mkPath cs vs] using hn
    obtain ⟨hnode, _⟩ := lookup_wf fs cs node hwf hlk
    have hsuf := rootCollected_suffix fs _ p hp
    simp only [rootCollected, hn] at hp
    obtain ⟨hname, names, reg, hnames, e, hlook⟩ :=
      collected_mem_fwd cs _ node p vs hnode hp
    have hv : ∀ c ∈ cs ++ names, validName c = true := by
      intro c hc
      rcases List.mem_append.1 hc with hc | hc
      · exact vs c hc
      · exact (hnames c hc).1
    subst e
    refine ⟨_, hr', names, reg, mkPath_canonical _ hv, ?_, ?_, ?_, hname,
      fun n hn => (hnames n hn).2⟩
    · rw [pathElems_mkPath _ hv, pathElems_mkPath _ vs]
    · simp [entryAt, pathElems_mkPath _ hv, lookup_append, hlk, hlook]
    · rw [← suffix_baseName _ hv]; exact hsuf
  · rintro ⟨r, hr, names, reg, hpc, hpe, hent, hsuf, hname, hnames⟩
    obtain ⟨cs, vs, rfl⟩ := canonical_exists r (hcan r hr)
    obtain ⟨cp, vp, rfl⟩ := canonical_exists p hpc
    rw [pathElems_mkPath _ vp, pathElems_mkPath _ vs] at hpe
    subst hpe
    obtain ⟨node, hn, hh⟩ := hhealthy _ hr
    have hlk : lookup fs cs = some node := by
      simpa [entryAt, pathElems_mkPath cs vs] using hn
    obtain ⟨hnode, _⟩ := lookup_wf fs cs node hwf hlk
    have hlook : lookup node names = some (.file reg) := by
      simpa [entryAt, pathElems_mkPath _ vp, lookup_append, hlk] using hent
    rw [← suffix_baseName _ vp] at hsuf
    refine ⟨_, (hm _).2 hr, ?_⟩
    simp only [rootCollected, hn]
    exact collected_mem_bwd cs _ node names reg vs hnode hh hname
      (fun m hm => ⟨vp m (List.mem_append_right _ hm), hnames m hm⟩) hlook hsuf

/-- Witness for C4 as amended: the example directory `/r` as the only root. -/
theorem collectFiles_mem_iff_witness :
    collectFiles exampleFs id ["/r".toList] =
        .ok ["/r/DOC.PDF".toList, "/r/f1.pdf".toList, "/r/f2.pdf".toList, "/r/f10.pdf".toList] ∧
      ∃ L, collectFiles exampleFs id ["/r".toList] = .ok L ∧ ∀ p, p ∈ L ↔
        ∃ r ∈ ["/r".toList], ∃ names reg, isCanonical p = true ∧
          pathElems p = pathElems r ++ names ∧
          entryAt exampleFs p = some (.file reg) ∧
          HasSuffix (ToLower (baseName p)) ['.', 'p', 'd', 'f'] = true ∧
          HasPrefix (baseName r) ['.'] = false ∧
          ∀ n ∈ names, HasPrefix n ['.'] = false :=
  ⟨by decide,
    collectFiles_mem_iff exampleFs (by decide) id ["/r".toList] (List.Perm.refl _) (by decide)
      (by
        intro r hr
        have : r = "/r".toList := by simpa using hr
        subst this
        exact ⟨_, rfl, by decide⟩)⟩

/-- C10: in a run of `processFile` that completes without error, with the extracted
images taken in page order and then in the order within the page, the image numbered
`index` on the page numbered `page` (both counted from 1) is written, as
`p<page>_i<index>.png` in the directory named after the source, exactly when no earlier
image has the same hash; two images with the same bytes are never both written, no file
is written twice, and the number of files written is the number of distinct hashes. -/
theorem processFile_dedup (md5 : List Nat → Nat) (path : GoString)
    (pages : List (List PdfImage)) (pngs : List Png)
    (h : processFile md5 path (some (pages.map some)) = .ok pngs) :
    (∀ pre x post, allImages 1 pages = pre ++ x :: post →
      ((∃ g ∈ pngs, g.page = x.1 ∧ g.index = x.2.1) ↔
        ∀ y ∈ pre, md5 y.2.2.data ≠ md5 x.2.2.data)) ∧
    (∀ pre x mid y post, allImages 1 pages = pre ++ x :: (mid ++ y :: post) →
      x.2.2.data = y.2.2.data → ¬ ∃ g ∈ pngs, g.page = y.1 ∧ g.index = y.2.1) ∧
    (∀ g ∈ pngs, g.path = Join (path.take (path.length - 4)) (pngName g.page g.index)) ∧
    (pngs.map (fun g => (g.page, g.index))).Nodup ∧
    pngs.length = ((allImages 1 pages).map (fun x => md5 x.2.2.data)).toFinset.card ∧
    (∀ x ∈ allImages 1 pages, 1 ≤ x.1 ∧ 1 ≤ x.2.1 ∧
      ∃ images, pages.get? (x.1 - 1) = some images ∧
        images.get? (x.2.1 - 1) = some x.2.2) := by
  have hp := pageLoop_spec md5 path pages 1 [] [] pngs h
  simp only [List.nil_append] at hp
  have hpos := allImages_nodup pages 1
  have hsub := keepFirst_sublist md5 (allImages 1 pages) []
  have key : ∀ pre x post, allImages 1 pages = pre ++ x :: post →
      ((∃ g ∈ pngs, g.page = x.1 ∧ g.index = x.2.1) ↔
        ∀ y ∈ pre, md5 y.2.2.data ≠ md5 x.2.2.data) := by
    intro pre x post hdec
    have hxmem : x ∈ allImages 1 pages := by rw [hdec]; simp
    have hnd : (pre ++ x :: post).Nodup := by rw [← hdec]; exact List.Nodup.of_map _ hpos
    have hk := keepFirst_mem md5 pre post x [] hnd
    rw [← hdec] at hk
    simp only [List.not_mem_nil, not_false_eq_true, true_and] at hk
    rw [← hk, hp]
    constructor
    · rintro ⟨g, hg, e1, e2⟩
      obtain ⟨z, hz, rfl⟩ := List.mem_map.1 hg
      have : z = x := List.inj_on_of_nodup_map hpos (hsub.subset hz) hxmem (by
        simp only [pngOf] at e1 e2
        simp [e1, e2])
      rw [← this]; exact hz
    · intro hx
      exact ⟨pngOf _ x, List.mem_map_of_mem _ hx, rfl, rfl⟩
  refine ⟨key, ?_, ?_, ?_, ?_, ?_⟩
  · intro pre x mid y post hdec hxy hw
    have hdec2 : allImages 1 pages = (pre ++ x :: mid) ++ y :: post := by simp [hdec]
    exact (key _ y post hdec2).1 hw x (by simp) (by rw [hxy])
  · intro g hg
    rw [hp] at hg
    obtain ⟨z, _, rfl⟩ := List.mem_map.1 hg
    rfl
  · have : pngs.map (fun g => (g.page, g.index)) =
        (keepFirst md5 [] (allImages 1 pages)).map (fun x => (x.1, x.2.1)) := by
      rw [hp, List.map_map]; rfl
    rw [this]
    exact (hsub.map _).nodup hpos
  · rw [hp, List.length_map, keepFirst_length]
    simp
  · intro x hx
    obtain ⟨h1, h2, images, h3, h4⟩ := allImages_mem pages 1 x hx
    exact ⟨h1, h2, images, h3, h4⟩

/-- Witness for C10: a document of two pages in which the first image occurs three
times; with the sum of the bytes as hash, three files are written. -/
theorem processFile_dedup_witness :
    processFile (fun d => d.sum) "/r/X.pdf".toList (some (exampleDoc.map some)) =
        .ok [⟨1, 1, "/r/X/p1_i1.png".toList⟩, ⟨1, 3, "/r/X/p1_i3.png".toList⟩,
          ⟨2, 2, "/r/X/p2_i2.png".toList⟩] ∧
      ([⟨1, 1, "/r/X/p1_i1.png".toList⟩, ⟨1, 3, "/r/X/p1_i3.png".toList⟩,
          ⟨2, 2, "/r/X/p2_i2.png".toList⟩] : List Png).length =
        ((allImages 1 exampleDoc).map (fun x => (fun d : List Nat => d.sum) x.2.2.data)).toFinset.card :=
  ⟨by decide,
    (processFile_dedup (fun d => d.sum) "/r/X.pdf".toList exampleDoc _ (by decide)).2.2.2.2.1⟩

end ExtractImages
